import Mathlib

/-!
# Verification of the Kobo highlight picker/inboxer core

A shallow embedding, over `List Char`, of the text-manipulating core of the
plugin: the sync/merge routine `syncToIntermediateNote` and the note header
builder `createNoteHeader` (src/modal/ExtractHighlightsModal.ts), the stats
computation `computeIntermediateStats` (same file and main.ts), and the
extraction routine `extractHighlightsToNotes` together with its helpers
`collectQuoteBlockUpwards`, `createNewInsightNote` and `sanitizeFileName`
(main.ts).  JavaScript strings are modelled as `List Char`; the handful of
JS string/regex primitives the code uses (`includes`, `trim`, `trimEnd`,
`split("\n")`, `join("\n")` and the specific anchored regexes) are given
explicit executable definitions below, each annotated with the JS operation
it models.
-/

set_option autoImplicit false

universe u

/-- JS whitespace test for the purposes of `trim`/`\s` (ASCII fragment). -/
def wsChar (c : Char) : Bool := c.isWhitespace

/-- Model of JS `String.prototype.includes`: `hasSub l pat` is true iff
`pat` occurs as a contiguous substring of `l`. -/
def hasSub : List Char → List Char → Bool
  | [], pat => pat.isEmpty
  | c :: t, pat => pat.isPrefixOf (c :: t) || hasSub t pat

/-- Number of positions of `l` at which `pat` occurs (occurrences may
overlap).  Used to reason about `hasSub`. -/
def occCount (pat : List Char) : List Char → Nat
  | [] => 0
  | c :: t => (if pat.isPrefixOf (c :: t) then 1 else 0) + occCount pat t

/-- Model of JS `String.prototype.trimEnd` on char lists. -/
def trimEndL (l : List Char) : List Char := (l.reverse.dropWhile wsChar).reverse

/-- Model of JS `String.prototype.trimStart` on char lists. -/
def trimStartL (l : List Char) : List Char := l.dropWhile wsChar

/-- Model of JS `String.prototype.trim` on char lists. -/
def trimL (l : List Char) : List Char := trimEndL (trimStartL l)

/-- Model of JS `str.split("\n")` on char lists. -/
def splitNL : List Char → List (List Char)
  | [] => [[]]
  | c :: rest =>
    match splitNL rest with
    | [] => [[]]
    | h :: t => if c = '\n' then [] :: h :: t else (c :: h) :: t

/-- Model of JS `lines.join("\n")`. -/
def joinNL : List (List Char) → List Char
  | [] => []
  | [l] => l
  | l :: l' :: rest => l ++ '\n' :: joinNL (l' :: rest)

/-! ## Sync engine (`syncToIntermediateNote`, ExtractHighlightsModal.ts 360–437)

A highlight row returned by the SQL query
`SELECT b.BookmarkID, b.Text, b.Annotation … AND b.Text IS NOT NULL`:
`id` is `row[0]`, `text` is `row[1]`, `ann` is `row[2] as string || ""`. -/

structure KoboRecord where
  id : String
  text : String
  ann : String
deriving DecidableEq, Repr

/-- Model of `rawText.replace(/\r?\n/g, '')`: every `"\r\n"` or `"\n"` is
removed, a lone `'\r'` is kept. -/
def stripNewlines : List Char → List Char
  | [] => []
  | '\r' :: '\n' :: rest => stripNewlines rest
  | '\n' :: rest => stripNewlines rest
  | c :: rest => c :: stripNewlines rest

/-- `const summary = rawText.replace(/\r?\n/g, '').slice(0, 30)`. -/
def summaryOf (raw : List Char) : List Char := (stripNewlines raw).take 30

/-- `rawText.trim().split('\n').map(line => "> " + line).join('\n')`. -/
def calloutText (raw : List Char) : List Char :=
  joinNL ((splitNL (trimL raw)).map (fun l => '>' :: ' ' :: l))

/-- The substring the duplicate check looks for:
`existingContent.includes(`id: ${id}`)`. -/
def patOf (id : String) : List Char := "id: ".data ++ id.data

/-- The block appended for one new record (ExtractHighlightsModal.ts 405–413):
separator, collapsed quote callout with a 30-char summary, the hidden
`<!-- id: … -->` marker (written here as `"<!-- " ++ patOf id ++ " -->"`,
the same characters as the template's `<!-- id: ${id} -->`), the
quote-prefixed text, optionally the Kobo annotation, and the empty memo
placeholder line. -/
def renderBlock (r : KoboRecord) : List Char :=
  "\n---\n> [!quote]- ".data ++ summaryOf r.text.data ++ "...\n> <!-- ".data
    ++ patOf r.id ++ " -->\n".data ++ calloutText r.text.data ++ "\n> \n\n".data
    ++ (if r.ann.data ≠ [] then "📝: ".data ++ r.ann.data ++ "\n\n".data else [])
    ++ "- [ ] memo:: \n".data

/-- The loop of ExtractHighlightsModal.ts 396–418: build the text of all new
blocks and count them.  Each record is checked against the content read at
the start of the pass (`existingContent`), not against the accumulator. -/
def newBlocks (existing : List Char) (records : List KoboRecord) : List Char × Nat :=
  records.foldl
    (fun acc r =>
      if hasSub existing (patOf r.id) then acc
      else (acc.1 ++ renderBlock r, acc.2 + 1))
    ([], 0)

/-- Which `Notice`/log the pass ends with (ExtractHighlightsModal.ts 379, 426,
432, 434). -/
inductive SyncReport where
  | noHighlights
  | addedSome (n : Nat)
  | createdHeaderOnly
  | allSynced
deriving DecidableEq, Repr

/-- Outcome of one `syncToIntermediateNote` pass: the on-disk content
afterwards (`none` = the file does not exist), the number of appended
blocks, whether a write happened, and the report. -/
structure SyncState where
  file : Option (List Char)
  addedCount : Nat
  wrote : Bool
  report : SyncReport
deriving DecidableEq, Repr

/-- One `syncToIntermediateNote` pass (ExtractHighlightsModal.ts 360–437) as a
pure function of the pre-state.  `fileExists`/`stored` describe the target
file before the pass; `header` is the `createNoteHeader` text used when the
file does not exist; `records` are the SQL result rows.  An empty result set
returns before touching the file (line 378–381); otherwise new blocks are
appended after `existingContent.trimEnd() + "\n\n"` with the new text
`.trim()`ed (line 423), and a document that produced no new blocks is
written only if it did not exist yet (lines 427–436). -/
def syncPass (fileExists : Bool) (stored header : List Char)
    (records : List KoboRecord) : SyncState :=
  if records.isEmpty then
    { file := if fileExists then some stored else none
      addedCount := 0, wrote := false, report := .noHighlights }
  else
    let existing := if fileExists then stored else header
    let nb := newBlocks existing records
    if 0 < nb.2 then
      { file := some (trimEndL existing ++ "\n\n".data ++ trimL nb.1)
        addedCount := nb.2, wrote := true, report := .addedSome nb.2 }
    else if fileExists then
      { file := some stored, addedCount := 0, wrote := false, report := .allSynced }
    else
      { file := some existing, addedCount := 0, wrote := true
        report := .createdHeaderOnly }

/-- `createNoteHeader` (ExtractHighlightsModal.ts 440–456) with the cached
stats fields generalised to arbitrary strings; the source hard-codes `0`
for both (see `createNoteHeader`). -/
def mkHeaderWith (title now hs is : String) : List Char :=
  "---\ntitle: \"".data ++ title.data ++ "\"\nsync_date: ".data ++ now.data
    ++ "\nkobo_stats:\n  highlights_total: ".data ++ hs.data
    ++ "\n  insights_created: ".data ++ is.data
    ++ "\n  updated_at: ".data ++ now.data
    ++ "\n---\n\n```kobo-inboxer\n```\n\n# ".data ++ title.data ++ "\n".data

/-- `createNoteHeader(title)` (ExtractHighlightsModal.ts 440–456); `now` is
the timestamp the source takes from `new Date().toISOString()`. -/
def createNoteHeader (title now : String) : List Char :=
  mkHeaderWith title now "0" "0"

/-! ## Stats engine (`computeIntermediateStats`, ExtractHighlightsModal.ts
339–353 and main.ts `computeKoboStatsFromBody`)

Both regexes are `^…`-anchored with the `m` flag, so they count matching
lines; the embedding therefore counts over `splitNL`. -/

/-- One match of `/^> \[!quote\]/m`: the line starts with `> [!quote]`. -/
def quoteOpenLine (l : List Char) : Bool := "> [!quote]".data.isPrefixOf l

/-- One match of `/^\s*-\s*insight::\s*\[\[.+?\]\]/m` within a line:
optional whitespace, `-`, optional whitespace, `insight::`, optional
whitespace, `[[`, then at least one character followed by `]]`. -/
def insightLinkLine (l : List Char) : Bool :=
  match l.dropWhile wsChar with
  | '-' :: r =>
    let r2 := r.dropWhile wsChar
    "insight::".data.isPrefixOf r2 &&
      (match (r2.drop 9).dropWhile wsChar with
       | '[' :: '[' :: r4 =>
         match r4 with
         | [] => false
         | _ :: r5 => hasSub r5 "]]".data
       | _ => false)
  | _ => false

/-- `computeIntermediateStats(text)`: `highlights_total` counts
`/^> \[!quote\]/gm` matches, `insights_created` counts
`/^\s*-\s*insight::\s*\[\[.+?\]\]/gm` matches.  Pure and total by
construction. -/
def computeIntermediateStats (text : List Char) : Nat × Nat :=
  ((splitNL text).countP quoteOpenLine, (splitNL text).countP insightLinkLine)

/-! ## Extraction engine (`extractHighlightsToNotes` and helpers, main.ts)

The working representation in the source is the array
`lines = content.split("\n")` plus a mutated copy `newLines`. -/

/-- `line.replace(/^\s*-\s*\[x\]\s*/, "")`: if the anchored pattern matches,
drop it, otherwise return the line unchanged. -/
def stripCheckbox (l : List Char) : List Char :=
  match l.dropWhile wsChar with
  | '-' :: r =>
    match r.dropWhile wsChar with
    | '[' :: 'x' :: ']' :: r2 => r2.dropWhile wsChar
    | _ => l
  | _ => l

/-- `line.replace(/^_\s*/, "")`. -/
def stripUnderscore (l : List Char) : List Char :=
  match l with
  | '_' :: r => r.dropWhile wsChar
  | _ => l

/-- The candidate title derived from a checked line (main.ts 120–122):
strip the checkbox, `trim()`, strip a leading `_`, `trim()` again. -/
def titleOf (l : List Char) : List Char :=
  trimL (stripUnderscore (trimL (stripCheckbox l)))

/-- The collection loop of main.ts 114–128: every line containing `- [x]`
whose derived title is non-empty becomes a target `(index, title)`,
scanning top to bottom. -/
def collectTargetsFrom : Nat → List (List Char) → List (Nat × List Char)
  | _, [] => []
  | i, l :: rest =>
    if hasSub l "- [x]".data && decide (titleOf l ≠ []) then
      (i, titleOf l) :: collectTargetsFrom (i + 1) rest
    else collectTargetsFrom (i + 1) rest

def collectTargets (lines : List (List Char)) : List (Nat × List Char) :=
  collectTargetsFrom 0 lines

/-- `[A-Za-z0-9_-]` of the id regex. -/
def idChar (c : Char) : Bool := c.isAlphanum || c = '_' || c = '-'

/-- Try to match `id:\s*([A-Za-z0-9_-]+)` at the head of `l`, returning the
captured group. -/
def tryIdAt (l : List Char) : Option (List Char) :=
  if "id:".data.isPrefixOf l then
    let r := (l.drop 3).dropWhile wsChar
    let tk := r.takeWhile idChar
    if tk.isEmpty then none else some tk
  else none

/-- `line.match(/id:\s*([A-Za-z0-9_-]+)/)`: leftmost match. -/
def findId : List Char → Option (List Char)
  | [] => none
  | c :: rest =>
    match tryIdAt (c :: rest) with
    | some x => some x
    | none => findId rest

/-- `line.startsWith(">")`. -/
def startsGt (l : List Char) : Bool :=
  match l with
  | '>' :: _ => true
  | _ => false

/-- `line.replace(/^>\s?/, "")`: drop the leading `>` and at most one
following whitespace character. -/
def stripQuote (l : List Char) : List Char :=
  match l with
  | '>' :: c :: r => if wsChar c then r else c :: r
  | '>' :: [] => []
  | _ => l

/-- The upward loop of `collectQuoteBlockUpwards` (main.ts 204–236) over the
lines above the target in bottom-to-top order (`revLines`).  Each visited
line may update the captured bookmark id; quote lines that are neither the
callout tag nor the marker comment are prepended (`unshift`); the loop
breaks at the first non-quote line after the quote run started — note that
the id check of the breaking line has already run. -/
def collectUp : List (List Char) → Bool → List (List Char) → List Char →
    List (List Char) × List Char
  | [], _, acc, b => (acc, b)
  | l :: rest, started, acc, b =>
    let b' := if hasSub l "id:".data then
        (match findId l with | some x => x | none => b)
      else b
    if startsGt l then
      let acc' := if !hasSub l "[!quote]".data && !hasSub l "<!--".data then
          stripQuote l :: acc
        else acc
      collectUp rest true acc' b'
    else if started then (acc, b')
    else collectUp rest started acc b'

/-- `collectQuoteBlockUpwards(lines, fromIndex)`: returns
`(quoteContent, bookmarkId)` where `quoteContent = quoteLines.join("\n")`. -/
def collectQuote (lines : List (List Char)) (fromIdx : Nat) : List Char × List Char :=
  let r := collectUp ((lines.take fromIdx).reverse) false [] []
  (joinNL r.1, r.2)

/-- The characters replaced by `sanitizeFileName`'s first
`replace(/[\\/:*?"<>|]/g, " ")`. -/
def badFsChar (c : Char) : Bool :=
  c = '\\' || c = '/' || c = ':' || c = '*' || c = '?' || c = '"' ||
    c = '<' || c = '>' || c = '|'

/-- `replace(/\s+/g, " ")`: each maximal whitespace run becomes one space. -/
def collapseWs : List Char → List Char
  | [] => []
  | [c] => if wsChar c then [' '] else [c]
  | c :: d :: rest =>
    if wsChar c && wsChar d then collapseWs (d :: rest)
    else (if wsChar c then ' ' else c) :: collapseWs (d :: rest)

/-- `sanitizeFileName` (main.ts 35–41). -/
def sanitizeFileName (name : List Char) : List Char :=
  (trimL (collapseWs (name.map (fun c => if badFsChar c then ' ' else c)))).take 120

/-- `(title ?? "").replace(/^\s*memo::\s*/i, "").trim()` of
`createNewInsightNote`. -/
def normalizedTitleOf (title : List Char) : List Char :=
  let d := title.dropWhile wsChar
  if (d.take 6).map Char.toLower = "memo::".data then
    trimL ((d.drop 6).dropWhile wsChar)
  else trimL title

/-- The path `createNewInsightNote` computes and returns (it returns the
path both on successful creation and from the `catch` arm), or `none` when
the normalized title is empty and no note is attempted.  Obsidian's
`normalizePath` is modelled as the identity on the already well-formed
`folder/name.md` concatenation. -/
def createdPathFor (folder title : List Char) : Option (List Char) :=
  let t := normalizedTitleOf title
  if t.isEmpty then none
  else some (folder ++ '/' :: sanitizeFileName t ++ ".md".data)

/-- `createdPath.replace(/\.md$/i, "")`. -/
def stripMdSuffix (p : List Char) : List Char :=
  match p.reverse with
  | d :: m :: dot :: rest =>
    if d.toLower = 'd' && m.toLower = 'm' && dot = '.' then rest.reverse else p
  | _ => p

/-- The marker line added after a rewrite:
`` `- ${INSIGHT_LINK_PREFIX} [[${linkTarget}]]` `` with
`INSIGHT_LINK_PREFIX = "insight::"`. -/
def insightLineFor (p : List Char) : List Char :=
  "- insight:: [[".data ++ stripMdSuffix p ++ "]]".data

/-- The replacement written over a processed target line:
`` `- [ ] memo:: ` ``. -/
def emptyMemoLine : List Char := "- [ ] memo:: ".data

/-- Model of `array.splice(n, 0, x)`: insert `x` so that it ends up at
position `n` (appends when `n` exceeds the length). -/
def insertAt {α : Type u} (n : Nat) (x : α) (l : List α) : List α :=
  l.take n ++ x :: l.drop n

/-- State threaded through the candidate loop of `extractHighlightsToNotes`:
the mutated `newLines`, the `createdCount`, and the list of insight-note
paths whose `vault.create` actually succeeded. -/
structure ExtractState where
  newLines : List (List Char)
  createdCount : Nat
  notesCreated : List (List Char)
deriving DecidableEq, Repr

/-- One iteration of the reverse loop of main.ts 135–160 for target `t`
`(index, title)`.  `origLines` is the unmutated `lines` array (the source
collects the quote block from `lines`, not `newLines`).  `oracle i` says
whether `vault.create` succeeds for the candidate at line `i`; on either
outcome `createNewInsightNote` hands back the path, so the rewrite below
does not depend on it. -/
def extractStep (folder : List Char) (origLines : List (List Char))
    (oracle : Nat → Bool) (st : ExtractState) (t : Nat × List Char) : ExtractState :=
  let qc := (collectQuote origLines t.1).1
  if (trimL qc).isEmpty then st
  else
    let cp := createdPathFor folder t.2
    let nl1 := st.newLines.set t.1 emptyMemoLine
    match cp with
    | some p =>
      { newLines := insertAt (t.1 + 1) (insightLineFor p) nl1
        createdCount := st.createdCount + 1
        notesCreated := if oracle t.1 then st.notesCreated ++ [p] else st.notesCreated }
    | none =>
      { newLines := nl1, createdCount := st.createdCount + 1
        notesCreated := st.notesCreated }

/-- `extractHighlightsToNotes(file)` (main.ts 109–165) as a pure function of
the file content: split into lines, collect the checked-and-titled targets,
return `none` (no write at all) when there are none, otherwise run the
candidate loop from the last target down to the first. -/
def extractPass (folder : List Char) (oracle : Nat → Bool)
    (content : List Char) : Option ExtractState :=
  let lines := splitNL content
  let targets := collectTargets lines
  if targets.isEmpty then none
  else some ((targets.reverse).foldl (extractStep folder lines oracle)
    { newLines := lines, createdCount := 0, notesCreated := [] })

/-! ## Document-model predicates (from the spec's block vocabulary)

These express the spec's `MemoLine`/`InsightLinkLine` notions over the
persisted format of §6: a memo line is `checkbox + "memo::" + text`, and
`insightLinkLine` above is the dedicated insight-reference line. -/

/-- A control line of memo shape: optional indent, `- [ ]`/`- [x]`/`- [X]`,
then the `memo::` keyword. -/
def isMemoLine (l : List Char) : Bool :=
  match l.dropWhile wsChar with
  | '-' :: r =>
    match r.dropWhile wsChar with
    | '[' :: c :: ']' :: r2 =>
      (c = ' ' || c = 'x' || c = 'X') &&
        "memo::".data.isPrefixOf (r2.dropWhile wsChar)
    | _ => false
  | _ => false

/-- The memo text carried by a memo line (empty for non-memo lines). -/
def memoTextOf (l : List Char) : List Char :=
  match l.dropWhile wsChar with
  | '-' :: r =>
    match r.dropWhile wsChar with
    | '[' :: _ :: ']' :: r2 => trimL ((r2.dropWhile wsChar).drop 6)
    | _ => []
  | _ => []

/-- A `MemoLine` in the `Filled` state. -/
def isFilledMemoLine (l : List Char) : Bool :=
  isMemoLine l && !(memoTextOf l).isEmpty

/-- A record id of the shape the code's own marker/extraction regexes
assume: non-empty and free of whitespace. -/
def GoodId (id : String) : Prop :=
  id.data ≠ [] ∧ ∀ c ∈ id.data, ¬ wsChar c

instance (id : String) : Decidable (GoodId id) := by
  unfold GoodId; infer_instance

/-! ## Document model with parse/serialize

Modelled from the spec: the repository manipulates raw line arrays and has
no parse/serialize pair; §4.2 of the spec reframes the document as an
ordered sequence of typed blocks with `parse(rawText) -> Document` and
`serialize(Document) -> rawText`, where a highlight block is "detected by a
contiguous run of quote-prefixed lines" carrying an embedded `recordId`
marker, and "unknown or malformed line patterns are preserved verbatim as
opaque text rather than dropped". -/

inductive KBlock where
  | highlight (recordId : Option (List Char)) (lines : List (List Char))
  | memo (line : List Char)
  | insight (line : List Char)
  | freeform (line : List Char)
deriving DecidableEq, Repr

/-- The verbatim lines a block stands for. -/
def blockLines : KBlock → List (List Char)
  | .highlight _ ls => ls
  | .memo l => [l]
  | .insight l => [l]
  | .freeform l => [l]

/-- First embedded `id:` marker value in a quote run, if any. -/
def runRecordId (run : List (List Char)) : Option (List Char) :=
  run.findSome? findId

/-- Close a pending quote run (accumulated in reverse) into a `highlight`
block in front of `bs`; an empty run contributes nothing. -/
def closeRun (acc : List (List Char)) (bs : List KBlock) : List KBlock :=
  match acc with
  | [] => bs
  | _ :: _ => KBlock.highlight (runRecordId acc.reverse) acc.reverse :: bs

/-- The non-quote single-line blocks. -/
def lineBlock (l : List Char) : KBlock :=
  if isMemoLine l then KBlock.memo l
  else if insightLinkLine l then KBlock.insight l
  else KBlock.freeform l

/-- Modelled from the spec (§4.2): tolerant block parser.  A maximal run of
quote-prefixed lines becomes one `highlight` block (lines kept verbatim,
record id extracted from the embedded marker); any other line becomes a
`memo`, `insight` or `freeform` block holding the line verbatim.  `acc` is
the quote run currently being read, in reverse order. -/
def parseAux : List (List Char) → List (List Char) → List KBlock
  | acc, [] => closeRun acc []
  | acc, l :: rest =>
    if startsGt l then parseAux (l :: acc) rest
    else closeRun acc (lineBlock l :: parseAux [] rest)

/-- Modelled from the spec: `parse(rawText) -> Document`. -/
def parseDoc (text : List Char) : List KBlock := parseAux [] (splitNL text)

/-- Modelled from the spec: `serialize(Document) -> rawText` re-emits every
block's verbatim lines. -/
def serializeDoc (doc : List KBlock) : List Char :=
  joinNL (doc.flatMap blockLines)

/-! ## Infrastructure: prefixes, occurrence counts and whitespace trimming -/

theorem isPrefixOf_eq_true_iff {p l : List Char} : p.isPrefixOf l = true ↔ p <+: l :=
  List.isPrefixOf_iff_prefix

theorem prefix_extend {p l b : List Char} (h : p <+: l) : p <+: l ++ b :=
  h.trans (List.prefix_append l b)

theorem prefix_of_append_of_le {p l b : List Char} (h : p <+: l ++ b)
    (hlen : p.length ≤ l.length) : p <+: l := by
  have h2 := List.prefix_iff_eq_take.mp h
  rw [List.take_append_of_le_length hlen] at h2
  rw [h2]
  exact List.take_prefix _ _

theorem prefix_of_append_split {p l b : List Char} (h : p <+: l ++ b)
    (hlen : l.length < p.length) : ∃ q, p = l ++ q ∧ q ≠ [] ∧ q <+: b := by
  have hp := List.prefix_iff_eq_take.mp h
  obtain ⟨k, hk⟩ : ∃ k, p.length = l.length + k := ⟨p.length - l.length, by omega⟩
  rw [hk, List.take_append] at hp
  refine ⟨b.take k, hp, ?_, List.take_prefix _ _⟩
  intro hq
  rw [hq] at hp
  have hlp : p.length = l.length := by rw [hp]; simp
  omega

theorem prefix_head_eq {p : List Char} {c : Char} {t : List Char}
    (h : p <+: c :: t) (hp : p ≠ []) : ∃ r, p = c :: r := by
  cases p with
  | nil => exact absurd rfl hp
  | cons a r =>
    obtain ⟨s, hs⟩ := h
    injection hs with h1 _
    exact ⟨r, by rw [h1]⟩

theorem occCount_nil (pat : List Char) : occCount pat [] = 0 := rfl

theorem occCount_cons (pat : List Char) (c : Char) (t : List Char) :
    occCount pat (c :: t) =
      (if pat.isPrefixOf (c :: t) then 1 else 0) + occCount pat t := rfl

theorem hasSub_iff_occCount {l pat : List Char} (hp : pat ≠ []) :
    hasSub l pat = true ↔ occCount pat l ≠ 0 := by
  induction l with
  | nil =>
    simp only [hasSub, occCount_nil]
    constructor
    · intro h; exact absurd (List.isEmpty_iff.mp h) hp
    · intro h; exact absurd rfl h
  | cons c t ih =>
    simp only [hasSub, occCount_cons, Bool.or_eq_true]
    by_cases h : pat.isPrefixOf (c :: t)
    · simp [h]
    · simp [h, ih]

theorem occCount_le_append_right (pat a b : List Char) :
    occCount pat a ≤ occCount pat (a ++ b) := by
  induction a with
  | nil => exact Nat.zero_le _
  | cons c t ih =>
    simp only [List.cons_append, occCount_cons]
    have hb : (if pat.isPrefixOf (c :: t) then 1 else 0)
        ≤ (if pat.isPrefixOf (c :: (t ++ b)) then 1 else 0) := by
      by_cases h : pat.isPrefixOf (c :: t)
      · have h2 : pat.isPrefixOf (c :: (t ++ b)) := by
          rw [isPrefixOf_eq_true_iff] at h ⊢
          exact prefix_extend h
        simp [h, h2]
      · simp [h]
    exact Nat.add_le_add hb ih

theorem occCount_le_append_left (pat a b : List Char) :
    occCount pat b ≤ occCount pat (a ++ b) := by
  induction a with
  | nil => exact Nat.le_refl _
  | cons c t ih =>
    simp only [List.cons_append, occCount_cons]
    omega

theorem prefixOf_append_nl {pat : List Char} (hnl : '\n' ∉ pat) (l b : List Char) :
    pat.isPrefixOf (l ++ '\n' :: b) = pat.isPrefixOf l := by
  by_cases hp : pat = []
  · subst hp; simp [List.isPrefixOf]
  apply Bool.eq_iff_iff.mpr
  rw [isPrefixOf_eq_true_iff, isPrefixOf_eq_true_iff]
  constructor
  · intro h
    rcases Nat.lt_or_ge l.length pat.length with hl | hl
    · obtain ⟨q, hq, hqne, hqb⟩ := prefix_of_append_split h hl
      obtain ⟨r, hr⟩ := prefix_head_eq hqb hqne
      exact absurd (by rw [hq, hr]; simp : '\n' ∈ pat) hnl
    · exact prefix_of_append_of_le h hl
  · intro h; exact prefix_extend h

theorem occCount_append_nl {pat : List Char} (hp : pat ≠ []) (hnl : '\n' ∉ pat)
    (a b : List Char) :
    occCount pat (a ++ '\n' :: b) = occCount pat a + occCount pat b := by
  induction a with
  | nil =>
    simp only [List.nil_append, occCount_cons, occCount_nil]
    have h1 : pat.isPrefixOf ('\n' :: b) = false := by
      cases h : pat.isPrefixOf ('\n' :: b) with
      | false => rfl
      | true =>
        exfalso
        rw [isPrefixOf_eq_true_iff] at h
        obtain ⟨r, hr⟩ := prefix_head_eq h hp
        exact hnl (by rw [hr]; simp)
    simp [h1]
  | cons c t ih =>
    simp only [List.cons_append, occCount_cons, ih]
    rw [show c :: (t ++ '\n' :: b) = (c :: t) ++ '\n' :: b from rfl,
      prefixOf_append_nl hnl (c :: t) b]
    omega

theorem occCount_eq_zero_of_all_ws {pat w : List Char}
    (hw : ∀ c ∈ w, wsChar c) (hx : ∃ c ∈ pat, wsChar c = false) :
    occCount pat w = 0 := by
  induction w with
  | nil => rfl
  | cons c t ih =>
    have h1 : pat.isPrefixOf (c :: t) = false := by
      cases h : pat.isPrefixOf (c :: t) with
      | false => rfl
      | true =>
        exfalso
        rw [isPrefixOf_eq_true_iff] at h
        obtain ⟨d, hd, hdw⟩ := hx
        have hwd := hw d (h.subset hd)
        rw [hwd] at hdw
        exact Bool.noConfusion hdw
    rw [occCount_cons, h1]
    simp only [show (if (false : Bool) = true then 1 else 0) = 0 from rfl, Nat.zero_add]
    exact ih (fun e he => hw e (List.mem_cons_of_mem _ he))

theorem prefixOf_append_ws {pat l w : List Char} {ch : Char}
    (hlast : pat.getLast? = some ch) (hchw : wsChar ch = false)
    (hw : ∀ c ∈ w, wsChar c) :
    pat.isPrefixOf (l ++ w) = pat.isPrefixOf l := by
  have hp : pat ≠ [] := by
    intro h; rw [h] at hlast; exact Option.noConfusion hlast
  apply Bool.eq_iff_iff.mpr
  rw [isPrefixOf_eq_true_iff, isPrefixOf_eq_true_iff]
  constructor
  · intro h
    rcases Nat.lt_or_ge l.length pat.length with hl | hl
    · exfalso
      obtain ⟨q, hq, hqne, hqw⟩ := prefix_of_append_split h hl
      have hq2 : pat.getLast? = some (q.getLast hqne) := by
        rw [hq, List.getLast?_append, List.getLast?_eq_getLast q hqne]
        rfl
      rw [hlast] at hq2
      have hcq : ch ∈ q := by
        rw [Option.some_inj] at hq2
        rw [hq2]
        exact List.getLast_mem hqne
      have hwc := hw ch (hqw.subset hcq)
      rw [hchw] at hwc
      exact Bool.noConfusion hwc
    · exact prefix_of_append_of_le h hl
  · intro h; exact prefix_extend h

theorem occCount_append_ws {pat a w : List Char} {ch : Char}
    (hlast : pat.getLast? = some ch) (hchw : wsChar ch = false)
    (hw : ∀ c ∈ w, wsChar c) :
    occCount pat (a ++ w) = occCount pat a := by
  induction a with
  | nil =>
    simp only [List.nil_append, occCount_nil]
    refine occCount_eq_zero_of_all_ws hw ⟨ch, List.mem_of_mem_getLast? hlast, hchw⟩
  | cons c t ih =>
    simp only [List.cons_append, occCount_cons, ih]
    rw [show c :: (t ++ w) = (c :: t) ++ w from rfl,
      prefixOf_append_ws hlast hchw hw]

theorem occCount_ws_append {pat w a : List Char} {ch : Char}
    (hhead : pat.head? = some ch) (hchw : wsChar ch = false)
    (hw : ∀ c ∈ w, wsChar c) :
    occCount pat (w ++ a) = occCount pat a := by
  induction w with
  | nil => rfl
  | cons c t ih =>
    have hp : pat ≠ [] := by
      intro h; rw [h] at hhead; exact Option.noConfusion hhead
    have h1 : pat.isPrefixOf (c :: (t ++ a)) = false := by
      cases h : pat.isPrefixOf (c :: (t ++ a)) with
      | false => rfl
      | true =>
        exfalso
        rw [isPrefixOf_eq_true_iff] at h
        obtain ⟨r, hr⟩ := prefix_head_eq h hp
        have hc : ch = c := by
          rw [hr] at hhead
          exact (Option.some_inj.mp hhead).symm
        have hwc := hw c (List.mem_cons_self c t)
        rw [← hc, hchw] at hwc
        exact Bool.noConfusion hwc
    simp only [List.cons_append, occCount_cons, h1,
      show (if (false : Bool) = true then 1 else 0) = 0 from rfl, Nat.zero_add]
    exact ih (fun e he => hw e (List.mem_cons_of_mem _ he))

theorem trimEnd_decomp (l : List Char) :
    ∃ w, l = trimEndL l ++ w ∧ ∀ c ∈ w, wsChar c := by
  refine ⟨(l.reverse.takeWhile wsChar).reverse, ?_, ?_⟩
  · have h2 : l = (l.reverse.takeWhile wsChar ++ l.reverse.dropWhile wsChar).reverse := by
      rw [List.takeWhile_append_dropWhile, List.reverse_reverse]
    conv_lhs => rw [h2]
    rw [List.reverse_append]
    rfl
  · intro c hc
    rw [List.mem_reverse] at hc
    exact List.mem_takeWhile_imp hc

theorem trimStart_decomp (l : List Char) :
    ∃ w, l = w ++ trimStartL l ∧ ∀ c ∈ w, wsChar c := by
  refine ⟨l.takeWhile wsChar, (List.takeWhile_append_dropWhile wsChar l).symm, ?_⟩
  intro c hc
  exact List.mem_takeWhile_imp hc

theorem occCount_trimL {pat : List Char} {hd lst : Char} (l : List Char)
    (hh : pat.head? = some hd) (hhw : wsChar hd = false)
    (hl : pat.getLast? = some lst) (hlw : wsChar lst = false) :
    occCount pat (trimL l) = occCount pat l := by
  obtain ⟨w2, hw2, hws2⟩ := trimStart_decomp l
  obtain ⟨w1, hw1, hws1⟩ := trimEnd_decomp (trimStartL l)
  calc occCount pat (trimL l)
      = occCount pat (trimL l ++ w1) := (occCount_append_ws hl hlw hws1).symm
    _ = occCount pat (trimStartL l) := by
        show occCount pat (trimEndL (trimStartL l) ++ w1) = occCount pat (trimStartL l)
        rw [← hw1]
    _ = occCount pat (w2 ++ trimStartL l) := (occCount_ws_append hh hhw hws2).symm
    _ = occCount pat l := by rw [← hw2]

theorem occCount_factor_pos {pat : List Char} (hp : pat ≠ []) (a b : List Char) :
    0 < occCount pat (a ++ pat ++ b) := by
  induction a with
  | nil =>
    cases pat with
    | nil => exact absurd rfl hp
    | cons c t =>
      simp only [List.nil_append, List.cons_append]
      rw [occCount_cons]
      have h2 : (c :: t).isPrefixOf (c :: (t ++ b)) = true := by
        rw [isPrefixOf_eq_true_iff]
        have hpre := List.prefix_append (c :: t) b
        simp only [List.cons_append] at hpre
        exact hpre
      rw [h2]
      simp
  | cons c t ih =>
    simp only [List.cons_append, occCount_cons]
    omega

theorem occ_pos_of_eq_factor {pat l a b : List Char} (hp : pat ≠ [])
    (h : l = a ++ pat ++ b) : 0 < occCount pat l := by
  rw [h]; exact occCount_factor_pos hp a b

/-! ## Infrastructure: lines (`split("\n")` / `join("\n")`) -/

theorem splitNL_ne_nil (l : List Char) : splitNL l ≠ [] := by
  cases l with
  | nil => simp [splitNL]
  | cons c rest =>
    show (match splitNL rest with
      | [] => [[]]
      | h :: t => if c = '\n' then [] :: h :: t else (c :: h) :: t) ≠ []
    cases splitNL rest with
    | nil => simp
    | cons h t =>
      by_cases hc : c = '\n' <;> simp [hc]

theorem splitNL_cons_eq (c : Char) (rest : List Char) :
    splitNL (c :: rest) = match splitNL rest with
      | [] => [[]]
      | h :: t => if c = '\n' then [] :: h :: t else (c :: h) :: t := rfl

theorem splitNL_append_nl (a b : List Char) :
    splitNL (a ++ '\n' :: b) = splitNL a ++ splitNL b := by
  induction a with
  | nil =>
    simp only [List.nil_append]
    rw [splitNL_cons_eq]
    cases h : splitNL b with
    | nil => exact absurd h (splitNL_ne_nil b)
    | cons x t => simp [splitNL]
  | cons c a ih =>
    simp only [List.cons_append]
    rw [splitNL_cons_eq, ih, splitNL_cons_eq]
    cases ha : splitNL a with
    | nil => exact absurd ha (splitNL_ne_nil a)
    | cons x t =>
      by_cases hc : c = '\n' <;> simp [hc]

theorem splitNL_no_nl {l : List Char} (h : '\n' ∉ l) : splitNL l = [l] := by
  induction l with
  | nil => rfl
  | cons c rest ih =>
    have hc : c ≠ '\n' := fun he => h (by rw [he]; exact List.mem_cons_self _ _)
    have hr : '\n' ∉ rest := fun he => h (List.mem_cons_of_mem _ he)
    rw [splitNL_cons_eq, ih hr]
    simp [hc]

theorem joinNL_splitNL (l : List Char) : joinNL (splitNL l) = l := by
  induction l with
  | nil => rfl
  | cons c rest ih =>
    rw [splitNL_cons_eq]
    cases h : splitNL rest with
    | nil => exact absurd h (splitNL_ne_nil rest)
    | cons x t =>
      rw [h] at ih
      dsimp only
      by_cases hc : c = '\n'
      · subst hc
        rw [if_pos rfl]
        rw [show joinNL ([] :: x :: t) = [] ++ '\n' :: joinNL (x :: t) from rfl]
        rw [ih]
        rfl
      · rw [if_neg hc]
        cases t with
        | nil =>
          rw [show joinNL [x] = x from rfl] at ih
          rw [show joinNL [c :: x] = c :: x from rfl, ih]
        | cons y t' =>
          rw [show joinNL (x :: y :: t') = x ++ '\n' :: joinNL (y :: t') from rfl] at ih
          rw [show joinNL ((c :: x) :: y :: t') = (c :: x) ++ '\n' :: joinNL (y :: t') from rfl]
          rw [show (c :: x) ++ '\n' :: joinNL (y :: t') = c :: (x ++ '\n' :: joinNL (y :: t')) from rfl]
          rw [ih]

/-! ## Sync-engine lemmas -/

/-- The records a merge pass appends: those whose `id: …` marker is not
found in the content read at the start of the pass. -/
def appendedRecs (existing : List Char) (records : List KoboRecord) : List KoboRecord :=
  records.filter (fun r => !(hasSub existing (patOf r.id)))

theorem newBlocks_fold (existing : List Char) (records : List KoboRecord)
    (acc : List Char × Nat) :
    records.foldl
      (fun acc r =>
        if hasSub existing (patOf r.id) then acc
        else (acc.1 ++ renderBlock r, acc.2 + 1)) acc
    = (acc.1 ++ ((appendedRecs existing records).map renderBlock).flatten,
       acc.2 + (appendedRecs existing records).length) := by
  induction records generalizing acc with
  | nil => simp [appendedRecs]
  | cons r rs ih =>
    by_cases h : hasSub existing (patOf r.id) = true
    · rw [List.foldl_cons, if_pos h, ih]
      simp [appendedRecs, h]
    · rw [List.foldl_cons, if_neg h, ih]
      simp only [appendedRecs, List.filter_cons]
      rw [show (!hasSub existing (patOf r.id)) = true from by
        rw [Bool.not_eq_true'] ; exact Bool.not_eq_true _ |>.mp h]
      simp [List.append_assoc]
      omega

theorem newBlocks_eq (existing : List Char) (records : List KoboRecord) :
    newBlocks existing records
      = (((appendedRecs existing records).map renderBlock).flatten,
         (appendedRecs existing records).length) := by
  unfold newBlocks
  rw [newBlocks_fold]
  simp

theorem patOf_ne_nil (id : String) : patOf id ≠ [] := by
  intro h
  have h2 := List.append_eq_nil.mp h
  exact absurd h2.1 (by decide)

theorem patOf_head (id : String) : (patOf id).head? = some 'i' := rfl

theorem patOf_no_nl {id : String} (h : GoodId id) : '\n' ∉ patOf id := by
  intro hm
  rcases List.mem_append.mp hm with h1 | h2
  · exact absurd h1 (by decide)
  · exact (h.2 '\n' h2) (by decide)

theorem patOf_getLast {id : String} (h : GoodId id) :
    ∃ ch, (patOf id).getLast? = some ch ∧ wsChar ch = false := by
  have hne := h.1
  refine ⟨id.data.getLast hne, ?_, ?_⟩
  · rw [patOf, List.getLast?_append, List.getLast?_eq_getLast _ hne]
    rfl
  · have hmem := h.2 _ (List.getLast_mem hne)
    cases hw : wsChar (id.data.getLast hne) with
    | false => rfl
    | true => exact absurd hw hmem

/-- Occurrence count of a whitespace-free marker pattern in the written
merge result `existing.trimEnd() + "\n\n" + newText.trim()`. -/
theorem occ_mergeResult {pat : List Char} {lst : Char}
    (hp : pat ≠ []) (hnl : '\n' ∉ pat)
    (hh : pat.head? = some 'i') (hl : pat.getLast? = some lst)
    (hlw : wsChar lst = false) (existing newText : List Char) :
    occCount pat (trimEndL existing ++ "\n\n".data ++ trimL newText)
      = occCount pat existing + occCount pat newText := by
  have e1 : trimEndL existing ++ "\n\n".data ++ trimL newText
      = trimEndL existing ++ '\n' :: '\n' :: trimL newText := by
    rw [List.append_assoc]
    rfl
  rw [e1, occCount_append_nl hp hnl]
  have e2 : occCount pat ('\n' :: trimL newText) = occCount pat (trimL newText) := by
    rw [occCount_cons]
    have hpre : pat.isPrefixOf ('\n' :: trimL newText) = false := by
      cases hx : pat.isPrefixOf ('\n' :: trimL newText) with
      | false => rfl
      | true =>
        exfalso
        rw [isPrefixOf_eq_true_iff] at hx
        obtain ⟨r, hr⟩ := prefix_head_eq hx hp
        rw [hr] at hh
        exact absurd (Option.some_inj.mp hh) (by decide)
    rw [hpre]
    simp
  rw [e2, occCount_trimL newText hh (by decide) hl hlw]
  obtain ⟨w, hw, hws⟩ := trimEnd_decomp existing
  have e3 : occCount pat existing = occCount pat (trimEndL existing) := by
    conv_lhs => rw [hw]
    exact occCount_append_ws hl hlw hws
  rw [e3]

theorem occ_renderBlock_pos (r : KoboRecord) :
    0 < occCount (patOf r.id) (renderBlock r) := by
  apply occ_pos_of_eq_factor (patOf_ne_nil r.id)
    (a := "\n---\n> [!quote]- ".data ++ summaryOf r.text.data ++ "...\n> <!-- ".data)
    (b := " -->\n".data ++ calloutText r.text.data ++ "\n> \n\n".data
      ++ (if r.ann.data ≠ [] then "📝: ".data ++ r.ann.data ++ "\n\n".data else [])
      ++ "- [ ] memo:: \n".data)
  simp [renderBlock, List.append_assoc]

theorem occ_flatten_pos {pat : List Char}
    {r : KoboRecord} {recs : List KoboRecord} (hr : r ∈ recs)
    (hpos : 0 < occCount pat (renderBlock r)) :
    0 < occCount pat ((recs.map renderBlock).flatten) := by
  obtain ⟨s, t, hst⟩ := List.append_of_mem hr
  rw [hst]
  simp only [List.map_append, List.map_cons, List.flatten_append, List.flatten_cons]
  calc 0 < occCount pat (renderBlock r) := hpos
    _ ≤ occCount pat (renderBlock r ++ (t.map renderBlock).flatten) :=
        occCount_le_append_right _ _ _
    _ ≤ occCount pat ((s.map renderBlock).flatten
          ++ (renderBlock r ++ (t.map renderBlock).flatten)) :=
        occCount_le_append_left _ _ _

/-- After a merge pass that wrote `existing.trimEnd() + "\n\n" + new.trim()`,
the id marker of every merged record is present in the written content. -/
theorem merge_pat_present (existing : List Char) (records : List KoboRecord)
    (hid : ∀ r ∈ records, GoodId r.id) (r : KoboRecord) (hr : r ∈ records) :
    hasSub (trimEndL existing ++ "\n\n".data ++ trimL (newBlocks existing records).1)
      (patOf r.id) = true := by
  have hg := hid r hr
  have hp := patOf_ne_nil r.id
  obtain ⟨lst, hl, hlw⟩ := patOf_getLast hg
  rw [hasSub_iff_occCount hp,
    occ_mergeResult hp (patOf_no_nl hg) (patOf_head r.id) hl hlw]
  by_cases hs : hasSub existing (patOf r.id) = true
  · have h0 := (hasSub_iff_occCount hp).mp hs
    omega
  · have hmem : r ∈ appendedRecs existing records := by
      rw [appendedRecs, List.mem_filter]
      exact ⟨hr, by rw [Bool.not_eq_true'] at *; exact Bool.not_eq_true _ |>.mp hs⟩
    have hpos : 0 < occCount (patOf r.id) (newBlocks existing records).1 := by
      rw [newBlocks_eq]
      exact occ_flatten_pos hmem (occ_renderBlock_pos r)
    omega

/-- A merge pass over an existing document that already embeds every
record's id marker is a confirmed no-op reporting "all synced". -/
theorem syncPass_allSynced {stored header : List Char} {records : List KoboRecord}
    (hne : records ≠ [])
    (hall : ∀ r ∈ records, hasSub stored (patOf r.id) = true) :
    syncPass true stored header records =
      { file := some stored, addedCount := 0, wrote := false, report := .allSynced } := by
  have hemp : records.isEmpty = false := by
    cases records with
    | nil => exact absurd rfl hne
    | cons a l => rfl
  have hnil : appendedRecs stored records = [] := by
    rw [appendedRecs, List.filter_eq_nil_iff]
    intro r hr
    simp [hall r hr]
  have hcnt : (newBlocks stored records).2 = 0 := by
    rw [newBlocks_eq, hnil]
    rfl
  simp [syncPass, hemp, hcnt]

theorem all_present_of_count_zero {existing : List Char} {records : List KoboRecord}
    (h : (newBlocks existing records).2 = 0) :
    ∀ r ∈ records, hasSub existing (patOf r.id) = true := by
  rw [newBlocks_eq] at h
  have hnil : appendedRecs existing records = [] := List.length_eq_zero.mp h
  intro r hr
  by_contra hs
  have hmem : r ∈ appendedRecs existing records := by
    rw [appendedRecs, List.mem_filter]
    refine ⟨hr, ?_⟩
    rw [Bool.not_eq_true']
    exact Bool.not_eq_true _ |>.mp hs
  rw [hnil] at hmem
  exact absurd hmem (List.not_mem_nil r)

/-- C1 (amended): provided every record id is non-empty and whitespace-free,
merging the same record sequence a second time immediately after a first
merge appends zero blocks, performs no write, leaves the document
byte-identical, and reports "all synced". -/
theorem c1_sync_merge_idempotent (fe : Bool) (stored header : List Char)
    (records : List KoboRecord) (hne : records ≠ [])
    (hid : ∀ r ∈ records, GoodId r.id) :
    ∃ c1, (syncPass fe stored header records).file = some c1 ∧
      syncPass true c1 header records =
        { file := some c1, addedCount := 0, wrote := false, report := .allSynced } := by
  have hemp : records.isEmpty = false := by
    cases records with
    | nil => exact absurd rfl hne
    | cons a l => rfl
  by_cases hadd : 0 < (newBlocks (if fe then stored else header) records).2
  · refine ⟨trimEndL (if fe then stored else header) ++ "\n\n".data
        ++ trimL (newBlocks (if fe then stored else header) records).1, ?_, ?_⟩
    · simp [syncPass, hemp, hadd]
    · exact syncPass_allSynced hne
        (fun r hr => merge_pat_present (if fe then stored else header) records hid r hr)
  · have hz : (newBlocks (if fe then stored else header) records).2 = 0 := by omega
    cases fe with
    | true =>
      have hz' : (newBlocks stored records).2 = 0 := by simpa using hz
      refine ⟨stored, ?_, ?_⟩
      · simp [syncPass, hemp, hz']
      · exact syncPass_allSynced hne (all_present_of_count_zero hz')
    | false =>
      have hz' : (newBlocks header records).2 = 0 := by simpa using hz
      refine ⟨header, ?_, ?_⟩
      · simp [syncPass, hemp, hz']
      · exact syncPass_allSynced hne (all_present_of_count_zero hz')

/-- C1 (counterexample to the claim as stated): with a record id ending in a
space, the trailing-whitespace trim of the first write can destroy the only
occurrence of the id marker, so the second merge appends the record again
and changes the document. -/
theorem c1_counterexample :
    ∃ c1, (syncPass true "x id: a ".data []
        [⟨"a ", "t", ""⟩, ⟨"b", "u", ""⟩]).file = some c1
      ∧ (syncPass true c1 [] [⟨"a ", "t", ""⟩, ⟨"b", "u", ""⟩]).addedCount = 1
      ∧ (syncPass true c1 [] [⟨"a ", "t", ""⟩, ⟨"b", "u", ""⟩]).file ≠ some c1 := by
  refine ⟨trimEndL "x id: a ".data ++ "\n\n".data
      ++ trimL (newBlocks "x id: a ".data [⟨"a ", "t", ""⟩, ⟨"b", "u", ""⟩]).1, ?_, ?_, ?_⟩
  · decide
  · decide
  · decide

/-- Witness for `c1_sync_merge_idempotent` at a concrete input. -/
theorem c1_witness :
    (([⟨"abc", "hello", ""⟩] : List KoboRecord) ≠ []
      ∧ ∀ r ∈ ([⟨"abc", "hello", ""⟩] : List KoboRecord), GoodId r.id)
    ∧ ∃ c1, (syncPass false [] "h".data [⟨"abc", "hello", ""⟩]).file = some c1 ∧
        syncPass true c1 "h".data [⟨"abc", "hello", ""⟩] =
          { file := some c1, addedCount := 0, wrote := false, report := .allSynced } :=
  ⟨⟨by decide, by decide⟩,
    c1_sync_merge_idempotent false [] "h".data [⟨"abc", "hello", ""⟩]
      (by decide) (by decide)⟩

/-- C6 (counterexample to the claim as stated): a sync pass for a book whose
record query returns no rows returns before touching the file
(ExtractHighlightsModal.ts 377–381), so a book without highlight records
gets no document at all — not a header-only placeholder.  Hence, over a
catalog of 3 books of which only 1 has records, the sync routine leaves the
2 record-less books with no document. -/
theorem c6_counterexample :
    (syncPass false [] (createNoteHeader "BookB" "T") []).file = none
      ∧ (syncPass false [] (createNoteHeader "BookB" "T") []).wrote = false
      ∧ (syncPass false [] (createNoteHeader "BookB" "T") []).report
          = SyncReport.noHighlights := by
  refine ⟨?_, ?_, ?_⟩ <;> decide

/-- C6 (amended): when the record query returns at least one row, a sync
pass whose target document does not yet exist always writes the document —
header-only (with the `createNoteHeader` text) when zero new blocks are
produced; a book with no records is skipped without creating a document. -/
theorem c6_write_on_nonexistent (stored header : List Char)
    (records : List KoboRecord) (hne : records ≠ []) :
    (syncPass false stored header records).wrote = true
      ∧ (∃ c, (syncPass false stored header records).file = some c)
      ∧ ((newBlocks header records).2 = 0 →
          (syncPass false stored header records).file = some header
            ∧ (syncPass false stored header records).report
                = SyncReport.createdHeaderOnly) := by
  have hemp : records.isEmpty = false := by
    cases records with
    | nil => exact absurd rfl hne
    | cons a l => rfl
  by_cases hadd : 0 < (newBlocks header records).2
  · refine ⟨?_,
      ⟨trimEndL header ++ "\n\n".data ++ trimL (newBlocks header records).1, ?_⟩, ?_⟩
    · simp [syncPass, hemp, hadd]
    · simp [syncPass, hemp, hadd]
    · intro h0; omega
  · have hz : (newBlocks header records).2 = 0 := by omega
    refine ⟨?_, ⟨header, ?_⟩, fun _ => ⟨?_, ?_⟩⟩ <;> simp [syncPass, hemp, hz]

/-- Witness for `c6_write_on_nonexistent` at a concrete input. -/
theorem c6_witness :
    (([⟨"a", "t", ""⟩] : List KoboRecord) ≠ [])
    ∧ ((syncPass false [] "h".data [⟨"a", "t", ""⟩]).wrote = true
      ∧ (∃ c, (syncPass false [] "h".data [⟨"a", "t", ""⟩]).file = some c)
      ∧ ((newBlocks "h".data [⟨"a", "t", ""⟩]).2 = 0 →
          (syncPass false [] "h".data [⟨"a", "t", ""⟩]).file = some "h".data
            ∧ (syncPass false [] "h".data [⟨"a", "t", ""⟩]).report
                = SyncReport.createdHeaderOnly)) :=
  ⟨by decide, c6_write_on_nonexistent [] "h".data [⟨"a", "t", ""⟩] (by decide)⟩

theorem renderBlock_ends_nl (r : KoboRecord) : ∃ a, renderBlock r = a ++ ['\n'] := by
  refine ⟨"\n---\n> [!quote]- ".data ++ summaryOf r.text.data ++ "...\n> <!-- ".data
    ++ patOf r.id ++ " -->\n".data ++ calloutText r.text.data ++ "\n> \n\n".data
    ++ (if r.ann.data ≠ [] then "📝: ".data ++ r.ann.data ++ "\n\n".data else [])
    ++ "- [ ] memo:: ".data, ?_⟩
  have h : "- [ ] memo:: \n".data = "- [ ] memo:: ".data ++ ['\n'] := by decide
  rw [renderBlock, h]
  simp [List.append_assoc]

theorem occ_flatten_eq_sum {pat : List Char} (hp : pat ≠ []) (hnl : '\n' ∉ pat)
    (recs : List KoboRecord) :
    occCount pat ((recs.map renderBlock).flatten)
      = (recs.map (fun r => occCount pat (renderBlock r))).sum := by
  induction recs with
  | nil => rfl
  | cons r rs ih =>
    simp only [List.map_cons, List.flatten_cons, List.sum_cons]
    obtain ⟨a, ha⟩ := renderBlock_ends_nl r
    rw [ha, List.append_assoc]
    rw [show (['\n'] : List Char) ++ (rs.map renderBlock).flatten
      = '\n' :: (rs.map renderBlock).flatten from rfl]
    rw [occCount_append_nl hp hnl, ih]
    have h2 : occCount pat (a ++ ['\n']) = occCount pat a := by
      rw [show (['\n'] : List Char) = '\n' :: ([] : List Char) from rfl,
        occCount_append_nl hp hnl, occCount_nil]
      omega
    rw [h2]

theorem sum_indicator_eq_count (rx : KoboRecord) (l : List KoboRecord)
    (f : KoboRecord → Nat) (h : ∀ r ∈ l, f r = if r = rx then 1 else 0) :
    (l.map f).sum = l.count rx := by
  induction l with
  | nil => rfl
  | cons b t ih =>
    simp only [List.map_cons, List.sum_cons, List.count_cons]
    rw [h b (List.mem_cons_self b t), ih (fun r hr => h r (List.mem_cons_of_mem _ hr))]
    by_cases hb : b = rx <;> (simp [hb]; try omega)

/-- C5 (amended): with whitespace-free ids, an overlapping id whose marker
is not already (spuriously) embedded in the starting document and whose
marker is not embedded by any other record's rendered block, `R1`'s record
is appended by the first merge, `R2`'s same-id record is skipped by the
second merge, and the final document embeds the id marker exactly once —
the occurrence written for `R1`'s record. -/
theorem c5_first_writer_wins
    (existing : List Char) (R1 R2 : List KoboRecord) (rx : KoboRecord)
    (hmem : rx ∈ R1) (hgood : GoodId rx.id)
    (hdoc : occCount (patOf rx.id) existing = 0)
    (hself : occCount (patOf rx.id) (renderBlock rx) = 1)
    (hoth1 : ∀ r ∈ R1, r ≠ rx → occCount (patOf rx.id) (renderBlock r) = 0)
    (hoth2 : ∀ r ∈ R2, r.id ≠ rx.id → occCount (patOf rx.id) (renderBlock r) = 0)
    (hcount : R1.count rx = 1) :
    ∃ c1 c2, (syncPass true existing [] R1).file = some c1
      ∧ (syncPass true c1 [] R2).file = some c2
      ∧ rx ∈ appendedRecs existing R1
      ∧ (∀ r2 ∈ R2, r2.id = rx.id → r2 ∉ appendedRecs c1 R2)
      ∧ occCount (patOf rx.id) c1 = 1
      ∧ occCount (patOf rx.id) c2 = 1 := by
  have hp : patOf rx.id ≠ [] := patOf_ne_nil rx.id
  have hnl : '\n' ∉ patOf rx.id := patOf_no_nl hgood
  have hh : (patOf rx.id).head? = some 'i' := patOf_head rx.id
  obtain ⟨lst, hl, hlw⟩ := patOf_getLast hgood
  have hsx : hasSub existing (patOf rx.id) = false := by
    cases hx : hasSub existing (patOf rx.id) with
    | false => rfl
    | true => exact absurd ((hasSub_iff_occCount hp).mp hx) (by omega)
  have hrxapp : rx ∈ appendedRecs existing R1 := by
    rw [appendedRecs, List.mem_filter]
    exact ⟨hmem, by rw [hsx]; rfl⟩
  have hocc1 : occCount (patOf rx.id) (newBlocks existing R1).1 = 1 := by
    rw [newBlocks_eq]
    rw [occ_flatten_eq_sum hp hnl]
    rw [sum_indicator_eq_count rx _ _ (fun r hr => ?_)]
    · rw [appendedRecs, List.count_filter (by rw [hsx]; rfl), hcount]
    · by_cases he : r = rx
      · rw [if_pos he, he, hself]
      · rw [if_neg he]
        exact hoth1 r (List.mem_of_mem_filter hr) he
  have hemp1 : R1.isEmpty = false := by
    cases R1 with
    | nil => exact absurd hmem (List.not_mem_nil rx)
    | cons a l => rfl
  have hadd1 : 0 < (newBlocks existing R1).2 := by
    rw [newBlocks_eq]
    have hne : appendedRecs existing R1 ≠ [] := by
      intro h
      rw [h] at hrxapp
      exact absurd hrxapp (List.not_mem_nil rx)
    cases happ : appendedRecs existing R1 with
    | nil => exact absurd happ hne
    | cons a l => simp
  have hfile1 : (syncPass true existing [] R1).file
      = some (trimEndL existing ++ "\n\n".data ++ trimL (newBlocks existing R1).1) := by
    simp [syncPass, hemp1, hadd1]
  have hc1occ : occCount (patOf rx.id)
      (trimEndL existing ++ "\n\n".data ++ trimL (newBlocks existing R1).1) = 1 := by
    rw [occ_mergeResult hp hnl hh hl hlw, hdoc, hocc1]
  set c1 := trimEndL existing ++ "\n\n".data ++ trimL (newBlocks existing R1).1 with hc1
  have hsc1 : hasSub c1 (patOf rx.id) = true := by
    rw [hasSub_iff_occCount hp, hc1occ]
    omega
  have hskip : ∀ r2 ∈ R2, r2.id = rx.id → r2 ∉ appendedRecs c1 R2 := by
    intro r2 _ hid hin
    rw [appendedRecs, List.mem_filter] at hin
    have h2 := hin.2
    rw [show patOf r2.id = patOf rx.id from by rw [hid], hsc1] at h2
    exact Bool.noConfusion h2
  have hocc2 : occCount (patOf rx.id) (newBlocks c1 R2).1 = 0 := by
    rw [newBlocks_eq, occ_flatten_eq_sum hp hnl]
    apply List.sum_eq_zero
    intro y hy
    obtain ⟨r, hr, hyr⟩ := List.mem_map.mp hy
    rw [← hyr]
    have hr2 : r ∈ R2 := List.mem_of_mem_filter hr
    by_cases hidq : r.id = rx.id
    · exact absurd hr (hskip r hr2 hidq)
    · exact hoth2 r hr2 hidq
  by_cases hR2e : R2 = []
  · subst hR2e
    exact ⟨c1, c1, hfile1, by simp [syncPass], hrxapp, hskip, hc1occ, hc1occ⟩
  · have hemp2 : R2.isEmpty = false := by
      cases R2 with
      | nil => exact absurd rfl hR2e
      | cons b l => rfl
    by_cases hadd2 : 0 < (newBlocks c1 R2).2
    · refine ⟨c1, trimEndL c1 ++ "\n\n".data ++ trimL (newBlocks c1 R2).1,
        hfile1, ?_, hrxapp, hskip, hc1occ, ?_⟩
      · simp [syncPass, hemp2, hadd2]
      · rw [occ_mergeResult hp hnl hh hl hlw, hc1occ, hocc2]
    · have hz2 : (newBlocks c1 R2).2 = 0 := by omega
      refine ⟨c1, c1, hfile1, ?_, hrxapp, hskip, hc1occ, hc1occ⟩
      simp [syncPass, hemp2, hz2]

/-- C5 (counterexample to the claim as stated): if the starting document
spuriously contains the substring `id: a`, the overlapping record is never
appended at all, so the final document contains the overlapping id's block
zero times, not exactly once. -/
theorem c5_counterexample :
    (syncPass true "id: a".data [] [⟨"a", "t", ""⟩]).file = some "id: a".data
      ∧ (syncPass true "id: a".data [] [⟨"a", "u", ""⟩]).file = some "id: a".data
      ∧ (splitNL "id: a".data).countP quoteOpenLine = 0 := by
  refine ⟨?_, ?_, ?_⟩ <;> decide

/-- Witness for `c5_first_writer_wins` at a concrete input. -/
theorem c5_witness :
    ∃ c1 c2, (syncPass true "doc".data [] [⟨"a", "t", ""⟩]).file = some c1
      ∧ (syncPass true c1 [] [⟨"a", "u", ""⟩]).file = some c2
      ∧ (⟨"a", "t", ""⟩ : KoboRecord) ∈ appendedRecs "doc".data [⟨"a", "t", ""⟩]
      ∧ (∀ r2 ∈ ([⟨"a", "u", ""⟩] : List KoboRecord), r2.id = "a" →
          r2 ∉ appendedRecs c1 [⟨"a", "u", ""⟩])
      ∧ occCount (patOf "a") c1 = 1
      ∧ occCount (patOf "a") c2 = 1 :=
  c5_first_writer_wins "doc".data [⟨"a", "t", ""⟩] [⟨"a", "u", ""⟩] ⟨"a", "t", ""⟩
    (by decide) (by decide) (by decide) (by decide)
    (by decide) (by decide) (by decide)

/-! ## Stats-engine lemmas -/

theorem mkHeaderWith_split (t n hs is : String) (body : List Char)
    (h1 : '\n' ∉ hs.data) (h2 : '\n' ∉ is.data) :
    splitNL (mkHeaderWith t n hs is ++ body)
      = splitNL ("---\ntitle: \"".data ++ t.data ++ "\"\nsync_date: ".data ++ n.data
          ++ "\nkobo_stats:".data)
        ++ ["  highlights_total: ".data ++ hs.data]
        ++ ["  insights_created: ".data ++ is.data]
        ++ splitNL ("  updated_at: ".data ++ n.data
            ++ "\n---\n\n```kobo-inboxer\n```\n\n# ".data ++ t.data ++ "\n".data ++ body) := by
  have hH : '\n' ∉ "  highlights_total: ".data ++ hs.data := by
    intro hm
    rcases List.mem_append.mp hm with h | h
    · exact absurd h (by decide)
    · exact h1 h
  have hI : '\n' ∉ "  insights_created: ".data ++ is.data := by
    intro hm
    rcases List.mem_append.mp hm with h | h
    · exact absurd h (by decide)
    · exact h2 h
  set X := "---\ntitle: \"".data ++ t.data ++ "\"\nsync_date: ".data ++ n.data
    ++ "\nkobo_stats:".data with hX
  set Hl := "  highlights_total: ".data ++ hs.data with hHl
  set Il := "  insights_created: ".data ++ is.data with hIl
  set Y := "  updated_at: ".data ++ n.data
    ++ "\n---\n\n```kobo-inboxer\n```\n\n# ".data ++ t.data ++ "\n".data ++ body with hY
  have e : mkHeaderWith t n hs is ++ body = X ++ '\n' :: (Hl ++ '\n' :: (Il ++ '\n' :: Y)) := by
    rw [mkHeaderWith, hX, hHl, hIl, hY]
    rw [show "\nkobo_stats:\n  highlights_total: ".data
      = "\nkobo_stats:".data ++ '\n' :: "  highlights_total: ".data from by decide]
    rw [show "\n  insights_created: ".data
      = '\n' :: "  insights_created: ".data from by decide]
    rw [show "\n  updated_at: ".data
      = '\n' :: "  updated_at: ".data from by decide]
    simp only [List.append_assoc, List.cons_append]
  rw [e, splitNL_append_nl X (Hl ++ '\n' :: (Il ++ '\n' :: Y)),
    splitNL_append_nl Hl (Il ++ '\n' :: Y), splitNL_append_nl Il Y,
    splitNL_no_nl hH, splitNL_no_nl hI]
  simp [List.append_assoc]

/-- C2: `computeIntermediateStats` is a total function of the document text;
its result does not depend on the cached `kobo_stats` numbers in the
frontmatter (replacing them with anything newline-free, in particular any
cached values, leaves the result unchanged); and it returns exactly the
number of lines opening a quote block with the `> [!quote]` marker paired
with the number of `- insight:: [[…]]` link lines. -/
theorem c2_stats_correct (t n hs is : String) (body : List Char)
    (h1 : '\n' ∉ hs.data) (h2 : '\n' ∉ is.data) :
    computeIntermediateStats (mkHeaderWith t n hs is ++ body)
      = computeIntermediateStats (mkHeaderWith t n "0" "0" ++ body)
    ∧ ∀ text, computeIntermediateStats text
        = ((splitNL text).countP quoteOpenLine, (splitNL text).countP insightLinkLine) := by
  constructor
  · have e1 := mkHeaderWith_split t n hs is body h1 h2
    have e2 := mkHeaderWith_split t n "0" "0" body (by decide) (by decide)
    unfold computeIntermediateStats
    rw [e1, e2]
    simp only [List.countP_append, List.countP_cons, List.countP_nil]
    rw [show quoteOpenLine ("  highlights_total: ".data ++ hs.data) = false from rfl,
      show insightLinkLine ("  highlights_total: ".data ++ hs.data) = false from rfl,
      show quoteOpenLine ("  insights_created: ".data ++ is.data) = false from rfl,
      show insightLinkLine ("  insights_created: ".data ++ is.data) = false from rfl,
      show quoteOpenLine ("  highlights_total: ".data ++ "0".data) = false from rfl,
      show insightLinkLine ("  highlights_total: ".data ++ "0".data) = false from rfl,
      show quoteOpenLine ("  insights_created: ".data ++ "0".data) = false from rfl,
      show insightLinkLine ("  insights_created: ".data ++ "0".data) = false from rfl]
  · intro text
    rfl

/-- Witness for `c2_stats_correct` at a concrete input. -/
theorem c2_witness :
    ('\n' ∉ "42".data ∧ '\n' ∉ "7".data)
    ∧ (computeIntermediateStats
          (mkHeaderWith "B" "T" "42" "7" ++ "\n> [!quote]- x\n- insight:: [[a]]".data)
        = computeIntermediateStats
          (mkHeaderWith "B" "T" "0" "0" ++ "\n> [!quote]- x\n- insight:: [[a]]".data)
      ∧ ∀ text, computeIntermediateStats text
          = ((splitNL text).countP quoteOpenLine, (splitNL text).countP insightLinkLine)) :=
  ⟨⟨by decide, by decide⟩,
    c2_stats_correct "B" "T" "42" "7" "\n> [!quote]- x\n- insight:: [[a]]".data
      (by decide) (by decide)⟩

/-! ## Extraction-engine lemmas -/

theorem take_set_of_le {α : Type u} (l : List α) (i n : Nat) (v : α) (h : n ≤ i) :
    (l.set i v).take n = l.take n := by
  induction l generalizing i n with
  | nil => simp
  | cons c t ih =>
    cases i with
    | zero =>
      have hn : n = 0 := by omega
      subst hn
      simp
    | succ i' =>
      cases n with
      | zero => simp
      | succ n' =>
        simp only [List.set_cons_succ, List.take_succ_cons]
        rw [ih i' n' (by omega)]

theorem length_insertAt {α : Type u} (i : Nat) (x : α) (l : List α) :
    (insertAt i x l).length = l.length + 1 := by
  simp only [insertAt, List.length_append, List.length_take, List.length_cons,
    List.length_drop]
  omega

theorem take_insertAt {α : Type u} (i n : Nat) (x : α) (l : List α)
    (hn : n ≤ i) (h2 : n ≤ l.length) :
    (insertAt i x l).take n = l.take n := by
  unfold insertAt
  rw [List.take_append_of_le_length (by simp [List.length_take]; omega),
    List.take_take]
  congr 1
  omega

theorem getq_of_take_eq {α : Type u} {l1 l2 : List α} {k : Nat}
    (h : l1.take (k + 1) = l2.take (k + 1)) : l1[k]? = l2[k]? := by
  have h1 : (l1.take (k + 1))[k]? = l1[k]? := List.getElem?_take_of_lt (by omega)
  have h2 : (l2.take (k + 1))[k]? = l2[k]? := List.getElem?_take_of_lt (by omega)
  rw [← h1, ← h2, h]

theorem extractStep_newLines_len (f : List Char) (L : List (List Char))
    (o : Nat → Bool) (st : ExtractState) (t : Nat × List Char) :
    st.newLines.length ≤ (extractStep f L o st t).newLines.length := by
  unfold extractStep
  by_cases hq : (trimL ((collectQuote L t.1).1)).isEmpty = true
  · simp [hq]
  · simp only [hq]
    cases hcp : createdPathFor f t.2 with
    | none => simp [hcp, List.length_set]
    | some p => simp [hcp, length_insertAt, List.length_set]

theorem extractStep_take_stable (f : List Char) (L : List (List Char))
    (o : Nat → Bool) (st : ExtractState) (t : Nat × List Char) (k : Nat)
    (hkt : k < t.1) (hlen : L.length ≤ st.newLines.length) (hk : k < L.length) :
    ((extractStep f L o st t).newLines).take (k + 1) = st.newLines.take (k + 1) := by
  unfold extractStep
  by_cases hq : (trimL ((collectQuote L t.1).1)).isEmpty = true
  · rw [if_pos hq]
  · rw [if_neg hq]
    cases hcp : createdPathFor f t.2 with
    | none =>
      simp only [hcp]
      exact take_set_of_le _ _ _ _ (by omega)
    | some p =>
      simp only [hcp]
      rw [take_insertAt (t.1 + 1) (k + 1) (insightLineFor p)
        (st.newLines.set t.1 emptyMemoLine) (by omega) (by rw [List.length_set]; omega)]
      exact take_set_of_le _ _ _ _ (by omega)

theorem foldl_take_stable (f : List Char) (L : List (List Char)) (o : Nat → Bool)
    (ts : List (Nat × List Char)) (st : ExtractState) (k : Nat)
    (hts : ∀ t ∈ ts, k < t.1) (hlen : L.length ≤ st.newLines.length)
    (hk : k < L.length) :
    ((ts.foldl (extractStep f L o) st).newLines).take (k + 1)
      = st.newLines.take (k + 1) := by
  induction ts generalizing st with
  | nil => rfl
  | cons t ts ih =>
    rw [List.foldl_cons]
    have hlen' : L.length ≤ (extractStep f L o st t).newLines.length :=
      le_trans hlen (extractStep_newLines_len f L o st t)
    rw [ih _ (fun t' ht' => hts t' (List.mem_cons_of_mem _ ht')) hlen']
    exact extractStep_take_stable f L o st t k (hts t (List.mem_cons_self _ _)) hlen hk

theorem collectTargetsFrom_mem {i : Nat} {ls : List (List Char)}
    {t : Nat × List Char} (h : t ∈ collectTargetsFrom i ls) :
    ∃ j l0, t.1 = i + j ∧ ls[j]? = some l0 ∧ t.2 = titleOf l0
      ∧ hasSub l0 "- [x]".data = true := by
  induction ls generalizing i with
  | nil => exact absurd h (List.not_mem_nil t)
  | cons l rest ih =>
    rw [collectTargetsFrom] at h
    by_cases hc : (hasSub l "- [x]".data && decide (titleOf l ≠ [])) = true
    · rw [if_pos hc] at h
      rcases List.mem_cons.mp h with he | hm
      · subst he
        exact ⟨0, l, rfl, by simp, rfl, (Bool.and_eq_true _ _ |>.mp hc).1⟩
      · obtain ⟨j, l0, hj, hget, hti, hsubx⟩ := ih hm
        exact ⟨j + 1, l0, by omega, by simpa using hget, hti, hsubx⟩
    · rw [if_neg hc] at h
      obtain ⟨j, l0, hj, hget, hti, hsubx⟩ := ih h
      exact ⟨j + 1, l0, by omega, by simpa using hget, hti, hsubx⟩

theorem collectTargetsFrom_lower {i : Nat} {ls : List (List Char)} :
    ∀ t ∈ collectTargetsFrom i ls, i ≤ t.1 := by
  intro t ht
  obtain ⟨j, l0, hj, _, _, _⟩ := collectTargetsFrom_mem ht
  omega

theorem collectTargetsFrom_sorted (i : Nat) (ls : List (List Char)) :
    (collectTargetsFrom i ls).Pairwise (fun a b => a.1 < b.1) := by
  induction ls generalizing i with
  | nil => exact List.Pairwise.nil
  | cons l rest ih =>
    rw [collectTargetsFrom]
    by_cases hc : (hasSub l "- [x]".data && decide (titleOf l ≠ [])) = true
    · rw [if_pos hc]
      refine List.Pairwise.cons ?_ (ih (i + 1))
      intro t ht
      have := collectTargetsFrom_lower t ht
      omega
    · rw [if_neg hc]
      exact ih (i + 1)

theorem collectTargets_sorted (ls : List (List Char)) :
    (collectTargets ls).Pairwise (fun a b => a.1 < b.1) :=
  collectTargetsFrom_sorted 0 ls

theorem collectTargets_mem {ls : List (List Char)} {t : Nat × List Char}
    (h : t ∈ collectTargets ls) :
    t.1 < ls.length ∧ ∃ l0, ls[t.1]? = some l0 ∧ t.2 = titleOf l0
      ∧ hasSub l0 "- [x]".data = true := by
  obtain ⟨j, l0, hj, hget, hti, hsubx⟩ := collectTargetsFrom_mem h
  have hj0 : j = t.1 := by omega
  subst hj0
  have hlt : t.1 < ls.length := by
    rcases List.getElem?_eq_some_iff.mp hget with ⟨hh, _⟩
    exact hh
  exact ⟨hlt, l0, hget, hti, hsubx⟩

/-- C9: extraction collects its candidates in increasing line order and
processes them in reverse document order; when each candidate comes up for
processing, the line at its recorded index in the working `newLines` array
is still the original line of the document — prior (higher-index)
rewrites and insertions have not shifted it. -/
theorem c9_reverse_order_stability (folder content : List Char) (oracle : Nat → Bool)
    (done rest : List (Nat × List Char)) (t : Nat × List Char)
    (hsplit : (collectTargets (splitNL content)).reverse = done ++ t :: rest) :
    ((done.foldl (extractStep folder (splitNL content) oracle)
        { newLines := splitNL content, createdCount := 0, notesCreated := [] }).newLines)[t.1]?
      = (splitNL content)[t.1]?
    ∧ (collectTargets (splitNL content)).Pairwise (fun a b => a.1 < b.1) := by
  have hsorted := collectTargets_sorted (splitNL content)
  refine ⟨?_, hsorted⟩
  have hdesc : ((collectTargets (splitNL content)).reverse).Pairwise
      (fun a b => b.1 < a.1) := by
    rw [List.pairwise_reverse]
    exact hsorted
  rw [hsplit] at hdesc
  have hdone : ∀ a ∈ done, t.1 < a.1 := by
    intro a ha
    exact (List.pairwise_append.mp hdesc).2.2 a ha t (List.mem_cons_self _ _)
  have htmem : t ∈ collectTargets (splitNL content) := by
    have : t ∈ (collectTargets (splitNL content)).reverse := by
      rw [hsplit]
      exact List.mem_append.mpr (Or.inr (List.mem_cons_self _ _))
    exact List.mem_reverse.mp this
  have hidx := (collectTargets_mem htmem).1
  exact getq_of_take_eq
    (foldl_take_stable folder (splitNL content) oracle done _ t.1 hdone (le_refl _) hidx)

/-- Witness for `c9_reverse_order_stability` at a concrete two-candidate
document. -/
theorem c9_witness :
    ((collectTargets (splitNL "> q1\n- [x] memo:: one\n> q2\n- [x] memo:: two".data)).reverse
        = [((3 : Nat), "memo:: two".data)] ++ ((1 : Nat), "memo:: one".data) :: [])
    ∧ ((([((3 : Nat), "memo:: two".data)].foldl
          (extractStep "Kobo-Insights".data
            (splitNL "> q1\n- [x] memo:: one\n> q2\n- [x] memo:: two".data) (fun _ => true))
          { newLines := splitNL "> q1\n- [x] memo:: one\n> q2\n- [x] memo:: two".data,
            createdCount := 0, notesCreated := [] }).newLines)[1]?
        = (splitNL "> q1\n- [x] memo:: one\n> q2\n- [x] memo:: two".data)[1]?
      ∧ (collectTargets
          (splitNL "> q1\n- [x] memo:: one\n> q2\n- [x] memo:: two".data)).Pairwise
            (fun a b => a.1 < b.1)) :=
  ⟨by decide,
    c9_reverse_order_stability "Kobo-Insights".data
      "> q1\n- [x] memo:: one\n> q2\n- [x] memo:: two".data (fun _ => true)
      [((3 : Nat), "memo:: two".data)] [] ((1 : Nat), "memo:: one".data) (by decide)⟩

/-- C7: a checked memo that carries only the placeholder (`- [x] memo:: `)
still becomes an extraction candidate (its derived title is the bare
`memo::` keyword), `createNewInsightNote` then declines to create a note,
yet the pass rewrites the line to the unchecked placeholder and counts the
candidate in the reported created count: zero notes created, block changed,
count 1. -/
theorem c7_placeholder_memo_bug :
    extractPass "Kobo-Insights".data (fun _ => true)
        "> [!quote]- s...\n> <!-- id: b7 -->\n> quoted line\n> \n- [x] memo:: ".data
      = some { newLines := ["> [!quote]- s...".data, "> <!-- id: b7 -->".data,
                "> quoted line".data, "> ".data, emptyMemoLine],
               createdCount := 1, notesCreated := [] }
    ∧ createdPathFor "Kobo-Insights".data "memo::".data = none
    ∧ (splitNL "> [!quote]- s...\n> <!-- id: b7 -->\n> quoted line\n> \n- [x] memo:: ".data)[4]?
        = some "- [x] memo:: ".data
    ∧ emptyMemoLine ≠ "- [x] memo:: ".data := by
  refine ⟨?_, ?_, ?_, ?_⟩ <;> decide

theorem extractStep_agree (f : List Char) (L : List (List Char))
    (o1 o2 : Nat → Bool) (st1 st2 : ExtractState) (t : Nat × List Char)
    (h1 : st1.newLines = st2.newLines) (h2 : st1.createdCount = st2.createdCount) :
    (extractStep f L o1 st1 t).newLines = (extractStep f L o2 st2 t).newLines
      ∧ (extractStep f L o1 st1 t).createdCount = (extractStep f L o2 st2 t).createdCount := by
  unfold extractStep
  by_cases hq : (trimL ((collectQuote L t.1).1)).isEmpty = true
  · rw [if_pos hq, if_pos hq]
    exact ⟨h1, h2⟩
  · rw [if_neg hq, if_neg hq]
    cases hcp : createdPathFor f t.2 with
    | none =>
      simp only [hcp]
      exact ⟨by rw [h1], by rw [h2]⟩
    | some p =>
      simp only [hcp]
      exact ⟨by rw [h1], by rw [h2]⟩

theorem foldl_extract_agree (f : List Char) (L : List (List Char))
    (o1 o2 : Nat → Bool) (ts : List (Nat × List Char)) (st1 st2 : ExtractState)
    (h1 : st1.newLines = st2.newLines) (h2 : st1.createdCount = st2.createdCount) :
    (ts.foldl (extractStep f L o1) st1).newLines
        = (ts.foldl (extractStep f L o2) st2).newLines
      ∧ (ts.foldl (extractStep f L o1) st1).createdCount
        = (ts.foldl (extractStep f L o2) st2).createdCount := by
  induction ts generalizing st1 st2 with
  | nil => exact ⟨h1, h2⟩
  | cons t ts ih =>
    rw [List.foldl_cons, List.foldl_cons]
    obtain ⟨g1, g2⟩ := extractStep_agree f L o1 o2 st1 st2 t h1 h2
    exact ih _ _ g1 g2

/-- C8: whether the per-candidate note creation succeeds, hits a
"file already exists" conflict, or fails for any other reason (the `oracle`
models the success of `vault.create`; `createNewInsightNote` returns the
intended path from its catch arm either way), the rewritten document and
the reported count are identical — a failure for one candidate neither
suppresses its own link rewrite (which uses the intended path) nor the
processing of the remaining candidates. -/
theorem c8_failure_tolerant_rewrite (folder content : List Char) (oracle : Nat → Bool) :
    (extractPass folder oracle content).map (fun st => (st.newLines, st.createdCount))
      = (extractPass folder (fun _ => true) content).map
          (fun st => (st.newLines, st.createdCount)) := by
  unfold extractPass
  by_cases he : (collectTargets (splitNL content)).isEmpty = true
  · rw [if_pos he, if_pos he]
  · rw [if_neg he, if_neg he]
    obtain ⟨g1, g2⟩ := foldl_extract_agree folder (splitNL content) oracle (fun _ => true)
      ((collectTargets (splitNL content)).reverse)
      { newLines := splitNL content, createdCount := 0, notesCreated := [] }
      { newLines := splitNL content, createdCount := 0, notesCreated := [] } rfl rfl
    exact congrArg some (Prod.ext g1 g2)

/-! ## Document-model round-trip lemmas -/

theorem blockLines_lineBlock (l : List Char) : blockLines (lineBlock l) = [l] := by
  unfold lineBlock
  by_cases h1 : isMemoLine l = true
  · simp [h1, blockLines]
  · by_cases h2 : insightLinkLine l = true
    · simp [h1, h2, blockLines]
    · simp [h1, h2, blockLines]

theorem flatMap_closeRun (acc : List (List Char)) (bs : List KBlock) :
    (closeRun acc bs).flatMap blockLines = acc.reverse ++ bs.flatMap blockLines := by
  cases acc with
  | nil => rfl
  | cons a t =>
    rw [closeRun]
    simp [blockLines]

theorem parseAux_lines (ls acc : List (List Char)) :
    (parseAux acc ls).flatMap blockLines = acc.reverse ++ ls := by
  induction ls generalizing acc with
  | nil =>
    rw [parseAux, flatMap_closeRun]
    simp
  | cons l rest ih =>
    rw [parseAux]
    by_cases hg : startsGt l = true
    · rw [if_pos hg, ih (l :: acc)]
      simp
    · rw [if_neg hg, flatMap_closeRun]
      simp only [List.flatMap_cons, blockLines_lineBlock, ih []]
      simp

/-- C10: `serialize(parse(text)) = text` byte-for-byte for every text — the
tolerant parser groups maximal quote runs into highlight blocks and keeps
every line verbatim (unknown or malformed lines as freeform blocks), so the
round trip is exact, in particular exact up to trailing-whitespace
normalization. -/
theorem c10_parse_serialize_roundtrip (text : List Char) :
    serializeDoc (parseDoc text) = text := by
  unfold serializeDoc parseDoc
  rw [parseAux_lines (splitNL text) []]
  simp only [List.reverse_nil, List.nil_append]
  exact joinNL_splitNL text

theorem getq_insertAt_lt {α : Type u} (n k : Nat) (x : α) (l : List α)
    (hk : k < n) (hn : n ≤ l.length) : (insertAt n x l)[k]? = l[k]? := by
  unfold insertAt
  rw [List.getElem?_append, if_pos (by simp [List.length_take]; omega)]
  exact List.getElem?_take_of_lt hk

theorem getq_insertAt_self {α : Type u} (n : Nat) (x : α) (l : List α)
    (hn : n ≤ l.length) : (insertAt n x l)[n]? = some x := by
  unfold insertAt
  have hlen : (l.take n).length = n := by simp [List.length_take]; omega
  rw [List.getElem?_append, if_neg (by omega), hlen]
  simp

theorem getq_insertAt_shift {α : Type u} (n k : Nat) (x : α) (l : List α)
    (hk : n ≤ k) (hn : n ≤ l.length) : (insertAt n x l)[k + 1]? = l[k]? := by
  unfold insertAt
  have hlen : (l.take n).length = n := by simp [List.length_take]; omega
  rw [List.getElem?_append, if_neg (by omega), hlen]
  have e : k + 1 - n = (k - n) + 1 := by omega
  rw [e]
  simp only [List.getElem?_cons_succ]
  rw [List.getElem?_drop]
  congr 1
  omega

theorem getq_set_self {α : Type u} (l : List α) (i : Nat) (v : α)
    (h : i < l.length) : (l.set i v)[i]? = some v := by
  simp [List.getElem?_set, h]

theorem getq_set_ne {α : Type u} (l : List α) (i k : Nat) (v : α)
    (h : i ≠ k) : (l.set i v)[k]? = l[k]? := by
  simp [List.getElem?_set, h]

theorem countP_set_eq {α : Type u} (p : α → Bool) (l : List α) (i : Nat) (v old : α)
    (h : l[i]? = some old) :
    (l.set i v).countP p + (if p old then 1 else 0)
      = l.countP p + (if p v then 1 else 0) := by
  obtain ⟨hi, hold⟩ := List.getElem?_eq_some_iff.mp h
  set A := l.take i with hA
  set D := l.drop (i + 1) with hD
  have hset : l.set i v = A ++ v :: D := by
    rw [List.set_eq_take_append_cons_drop, if_pos hi]
  have hl : l = A ++ old :: D := by
    conv_lhs => rw [← List.take_append_drop i l]
    rw [List.drop_eq_getElem_cons hi, hold]
  rw [hset]
  conv_rhs => rw [hl]
  simp only [List.countP_append, List.countP_cons]
  omega

theorem countP_insertAt {α : Type u} (p : α → Bool) (n : Nat) (x : α) (l : List α) :
    (insertAt n x l).countP p = l.countP p + (if p x then 1 else 0) := by
  unfold insertAt
  conv_rhs => rw [← List.take_append_drop n l]
  simp only [List.countP_append, List.countP_cons]
  omega

theorem mem_insertAt {α : Type u} {a x : α} {n : Nat} {l : List α}
    (h : a ∈ insertAt n x l) : a ∈ l ∨ a = x := by
  unfold insertAt at h
  rcases List.mem_append.mp h with h1 | h2
  · exact Or.inl (List.take_subset n l h1)
  · rcases List.mem_cons.mp h2 with h3 | h4
    · exact Or.inr h3
    · exact Or.inl (List.drop_subset n l h4)

theorem isPrefixOf_cons_head {c : Char} {pat l : List Char}
    (h : (c :: pat).isPrefixOf l = true) : ∃ t, l = c :: t := by
  cases l with
  | nil => exact absurd h (by simp [List.isPrefixOf])
  | cons a t =>
    rw [List.isPrefixOf] at h
    have hc := (Bool.and_eq_true _ _ |>.mp h).1
    exact ⟨t, by rw [beq_iff_eq.mp hc]⟩

theorem insight_shape {l0 : List Char} (h : insightLinkLine l0 = true) :
    ∃ r, l0.dropWhile wsChar = '-' :: r ∧ ∃ r2', r.dropWhile wsChar = 'i' :: r2' := by
  unfold insightLinkLine at h
  split at h
  next r heq =>
    refine ⟨r, heq, ?_⟩
    have h1 := (Bool.and_eq_true _ _ |>.mp h).1
    obtain ⟨t, ht⟩ := isPrefixOf_cons_head (by exact h1)
    exact ⟨t, ht⟩
  next heq2 => exact absurd h (by decide)

theorem stripCheckbox_insight {l0 : List Char} (h : insightLinkLine l0 = true) :
    stripCheckbox l0 = l0 := by
  obtain ⟨r, hd, r2', hr2⟩ := insight_shape h
  unfold stripCheckbox
  split
  next r' heq =>
    have hrr : r' = r := by
      rw [hd] at heq
      exact (List.cons.inj heq).2.symm
    subst hrr
    split
    next r2 heq2 =>
      rw [hr2] at heq2
      exact absurd (List.cons.inj heq2).1 (by decide)
    next => rfl
  next => rfl

theorem dropWhile_idem (p : Char → Bool) (l : List Char) :
    (l.dropWhile p).dropWhile p = l.dropWhile p := by
  induction l with
  | nil => rfl
  | cons c t ih =>
    by_cases hc : p c = true
    · simp [List.dropWhile_cons, hc, ih]
    · simp [List.dropWhile_cons, hc]

theorem trimEndL_cons_of_not_ws {c : Char} (r : List Char) (hc : wsChar c = false) :
    trimEndL (c :: r) = c :: trimEndL r := by
  unfold trimEndL
  rw [List.reverse_cons, List.dropWhile_append]
  by_cases he : (r.reverse.dropWhile wsChar).isEmpty = true
  · rw [if_pos he]
    have h1 : List.dropWhile wsChar [c] = [c] := by simp [List.dropWhile, hc]
    have h2 : r.reverse.dropWhile wsChar = [] := List.isEmpty_iff.mp he
    rw [h1, h2]
    rfl
  · rw [if_neg he, List.reverse_append]
    simp

theorem trimL_cons_head {l r : List Char} {c : Char} (hc : wsChar c = false)
    (hd : l.dropWhile wsChar = c :: r) :
    trimL l = c :: trimEndL r := by
  unfold trimL trimStartL
  rw [hd]
  exact trimEndL_cons_of_not_ws r hc

theorem trimEndL_idem (l : List Char) : trimEndL (trimEndL l) = trimEndL l := by
  unfold trimEndL
  rw [List.reverse_reverse, dropWhile_idem]

theorem titleOf_insight {l0 : List Char} (h : insightLinkLine l0 = true) :
    titleOf l0 = '-' :: trimEndL ((l0.dropWhile wsChar).tail) := by
  obtain ⟨r, hd, r2', hr2⟩ := insight_shape h
  unfold titleOf
  rw [stripCheckbox_insight h]
  rw [trimL_cons_head (by decide) hd]
  rw [show stripUnderscore ('-' :: trimEndL r) = '-' :: trimEndL r from rfl]
  rw [trimL_cons_head (c := '-') (r := trimEndL r) (by decide)
    (by simp [List.dropWhile, wsChar])]
  rw [trimEndL_idem, hd]
  rfl

theorem normalizedTitleOf_dash (Y : List Char) :
    normalizedTitleOf ('-' :: Y) = '-' :: trimEndL Y := by
  unfold normalizedTitleOf
  rw [show List.dropWhile wsChar ('-' :: Y) = '-' :: Y from by
    simp [List.dropWhile, wsChar]]
  rw [if_neg ?hneg]
  case hneg =>
    intro hC
    rw [show (('-' :: Y).take 6).map Char.toLower
      = '-' :: (Y.take 5).map Char.toLower from rfl] at hC
    exact absurd (List.cons.inj hC).1 (by decide)
  exact trimL_cons_head (c := '-') (r := Y) (by decide) (by simp [List.dropWhile, wsChar])

theorem insight_title_nonempty {l0 : List Char} (h : insightLinkLine l0 = true) :
    normalizedTitleOf (titleOf l0) ≠ [] := by
  rw [titleOf_insight h, normalizedTitleOf_dash]
  exact List.cons_ne_nil _ _

theorem insightLinkLine_wrap {A : List Char} (hA : A ≠ []) :
    insightLinkLine ("- insight:: [[".data ++ A ++ "]]".data) = true := by
  cases A with
  | nil => exact absurd rfl hA
  | cons a A' =>
    have e : insightLinkLine ("- insight:: [[".data ++ (a :: A') ++ "]]".data)
        = hasSub (A' ++ "]]".data) "]]".data := rfl
    rw [e, hasSub_iff_occCount (by decide)]
    have hpos := @occCount_factor_pos "]]".data (by decide) A' []
    rw [List.append_nil] at hpos
    omega

theorem isMemoLine_insightLineFor (p : List Char) :
    isMemoLine (insightLineFor p) = false := rfl

theorem createdPathFor_insight {folder title p : List Char}
    (h : createdPathFor folder title = some p) :
    insightLinkLine (insightLineFor p) = true := by
  unfold createdPathFor at h
  by_cases ht : (normalizedTitleOf title).isEmpty = true
  · rw [if_pos ht] at h
    exact Option.noConfusion h
  · rw [if_neg ht] at h
    have hp := Option.some_inj.mp h
    have hstrip : stripMdSuffix p
        = folder ++ '/' :: sanitizeFileName (normalizedTitleOf title) := by
      rw [← hp]
      unfold stripMdSuffix
      have hrev : (folder ++ '/' :: sanitizeFileName (normalizedTitleOf title)
            ++ ".md".data).reverse
          = 'd' :: 'm' :: '.'
            :: (folder ++ '/' :: sanitizeFileName (normalizedTitleOf title)).reverse := by
        rw [List.reverse_append]
        rfl
      rw [hrev]
      dsimp only
      rw [if_pos (by decide), List.reverse_reverse]
    rw [insightLineFor, hstrip]
    exact insightLinkLine_wrap (by simp)

theorem foldl_newLines_len (f : List Char) (L : List (List Char)) (o : Nat → Bool)
    (ts : List (Nat × List Char)) (st : ExtractState) :
    st.newLines.length ≤ ((ts.foldl (extractStep f L o) st).newLines).length := by
  induction ts generalizing st with
  | nil => exact Nat.le_refl _
  | cons t ts ih =>
    rw [List.foldl_cons]
    exact le_trans (extractStep_newLines_len f L o st t) (ih _)

theorem extractStep_mem_lines (f : List Char) (L : List (List Char)) (o : Nat → Bool)
    (st : ExtractState) (t : Nat × List Char) :
    ∀ l' ∈ (extractStep f L o st t).newLines,
      l' ∈ st.newLines ∨ l' = emptyMemoLine ∨ ∃ p, l' = insightLineFor p := by
  intro l' hl'
  unfold extractStep at hl'
  by_cases hq : (trimL ((collectQuote L t.1).1)).isEmpty = true
  · rw [if_pos hq] at hl'
    exact Or.inl hl'
  · rw [if_neg hq] at hl'
    cases hcp : createdPathFor f t.2 with
    | none =>
      simp only [hcp] at hl'
      rcases List.mem_or_eq_of_mem_set hl' with h1 | h2
      · exact Or.inl h1
      · exact Or.inr (Or.inl h2)
    | some p =>
      simp only [hcp] at hl'
      rcases mem_insertAt hl' with h1 | h2
      · rcases List.mem_or_eq_of_mem_set h1 with h3 | h4
        · exact Or.inl h3
        · exact Or.inr (Or.inl h4)
      · exact Or.inr (Or.inr ⟨p, h2⟩)

theorem foldl_mem_lines (f : List Char) (L : List (List Char)) (o : Nat → Bool)
    (ts : List (Nat × List Char)) (st : ExtractState) :
    ∀ l' ∈ ((ts.foldl (extractStep f L o) st).newLines),
      l' ∈ st.newLines ∨ l' = emptyMemoLine ∨ ∃ p, l' = insightLineFor p := by
  induction ts generalizing st with
  | nil => exact fun l' hl' => Or.inl hl'
  | cons t ts ih =>
    intro l' hl'
    rw [List.foldl_cons] at hl'
    rcases ih _ l' hl' with h1 | h2
    · exact extractStep_mem_lines f L o st t l' h1
    · exact Or.inr h2

theorem extractStep_insight_mono (f : List Char) (L : List (List Char)) (o : Nat → Bool)
    (st : ExtractState) (t : Nat × List Char) (l0 : List Char)
    (hget : st.newLines[t.1]? = some l0) (ht2 : t.2 = titleOf l0) :
    st.newLines.countP insightLinkLine
      ≤ ((extractStep f L o st t).newLines).countP insightLinkLine := by
  unfold extractStep
  by_cases hq : (trimL ((collectQuote L t.1).1)).isEmpty = true
  · rw [if_pos hq]
  · rw [if_neg hq]
    cases hcp : createdPathFor f t.2 with
    | none =>
      simp only [hcp]
      have hl0 : insightLinkLine l0 = false := by
        cases hins : insightLinkLine l0 with
        | false => rfl
        | true =>
          exfalso
          have hne := insight_title_nonempty hins
          rw [← ht2] at hne
          unfold createdPathFor at hcp
          rw [if_neg (by simpa [List.isEmpty_iff] using hne)] at hcp
          exact Option.noConfusion hcp
      have hc := countP_set_eq insightLinkLine st.newLines t.1 emptyMemoLine l0 hget
      rw [hl0, show insightLinkLine emptyMemoLine = false from by decide,
        if_neg (by decide : ¬ (false = true))] at hc
      omega
    | some p =>
      simp only [hcp]
      rw [countP_insertAt,
        show insightLinkLine (insightLineFor p) = true from createdPathFor_insight hcp,
        if_pos (rfl : true = true)]
      have hc := countP_set_eq insightLinkLine st.newLines t.1 emptyMemoLine l0 hget
      rw [show insightLinkLine emptyMemoLine = false from by decide,
        if_neg (by decide : ¬ (false = true))] at hc
      by_cases hins : insightLinkLine l0 = true
      · rw [hins, if_pos rfl] at hc
        omega
      · rw [Bool.not_eq_true] at hins
        rw [hins, if_neg (by decide : ¬ (false = true))] at hc
        omega

theorem foldl_insight_mono (f : List Char) (L : List (List Char)) (o : Nat → Bool)
    (ts : List (Nat × List Char)) (st : ExtractState)
    (hdesc : ts.Pairwise (fun a b => b.1 < a.1))
    (hprops : ∀ t ∈ ts, ∃ l0, L[t.1]? = some l0 ∧ t.2 = titleOf l0 ∧ t.1 < L.length)
    (hlen : L.length ≤ st.newLines.length)
    (hpre : ∀ t ∈ ts, st.newLines.take (t.1 + 1) = L.take (t.1 + 1)) :
    st.newLines.countP insightLinkLine
      ≤ ((ts.foldl (extractStep f L o) st).newLines).countP insightLinkLine := by
  induction ts generalizing st with
  | nil => exact Nat.le_refl _
  | cons t ts ih =>
    rw [List.foldl_cons]
    obtain ⟨l0, hL0, ht2, hidx⟩ := hprops t (List.mem_cons_self _ _)
    have hget : st.newLines[t.1]? = some l0 := by
      rw [getq_of_take_eq (hpre t (List.mem_cons_self _ _)), hL0]
    have step1 := extractStep_insight_mono f L o st t l0 hget ht2
    have hlen' : L.length ≤ (extractStep f L o st t).newLines.length :=
      le_trans hlen (extractStep_newLines_len f L o st t)
    have hpre' : ∀ t' ∈ ts,
        ((extractStep f L o st t).newLines).take (t'.1 + 1) = L.take (t'.1 + 1) := by
      intro t' ht'
      have hlt : t'.1 < t.1 := (List.pairwise_cons.mp hdesc).1 t' ht'
      obtain ⟨_, _, _, hidx'⟩ := hprops t' (List.mem_cons_of_mem _ ht')
      rw [extractStep_take_stable f L o st t t'.1 hlt hlen hidx']
      exact hpre t' (List.mem_cons_of_mem _ ht')
    exact le_trans step1 (ih _ (List.pairwise_cons.mp hdesc).2
      (fun t' ht' => hprops t' (List.mem_cons_of_mem _ ht')) hlen' hpre')

/-- C4: extraction monotonicity.  (1) An extraction pass never decreases the
number of insight-link lines: every block already extracted keeps its
`InsightLinkLine`.  (2) It introduces no new filled memo line: any
`MemoLine` with non-empty text in the output was already a line of the
input document, so no extracted block regains a non-empty `MemoLine`.
(3) The other core operation, a sync pass, only appends: the written
content is the stored document, the fresh header, or the trimmed pre-pass
content followed verbatim by appended text — it rewrites no existing line,
so it cannot turn an insight-link line back into a memo line. -/
theorem c4_insight_monotone (folder content : List Char) (oracle : Nat → Bool)
    (fe : Bool) (stored header : List Char) (records : List KoboRecord)
    (st : ExtractState) (h : extractPass folder oracle content = some st) :
    ((splitNL content).countP insightLinkLine ≤ st.newLines.countP insightLinkLine)
    ∧ (∀ l' ∈ st.newLines, isFilledMemoLine l' = true → l' ∈ splitNL content)
    ∧ (∀ c, (syncPass fe stored header records).file = some c →
        c = stored ∨ c = header ∨
        ∃ rest, c = trimEndL (if fe then stored else header) ++ "\n\n".data ++ rest) := by
  unfold extractPass at h
  by_cases ht : (collectTargets (splitNL content)).isEmpty = true
  · rw [if_pos ht] at h
    exact Option.noConfusion h
  · rw [if_neg ht] at h
    obtain rfl : st = _ := (Option.some.inj h).symm
    refine ⟨?_, ?_, ?_⟩
    · exact foldl_insight_mono folder (splitNL content) oracle
        ((collectTargets (splitNL content)).reverse)
        { newLines := splitNL content, createdCount := 0, notesCreated := [] }
        (by rw [List.pairwise_reverse]; exact collectTargets_sorted _)
        (by
          intro t ht'
          obtain ⟨hlt, l0, hget, hti, _⟩ := collectTargets_mem (List.mem_reverse.mp ht')
          exact ⟨l0, hget, hti, hlt⟩)
        (le_refl _)
        (fun t ht' => rfl)
    · intro l' hl' hf
      rcases foldl_mem_lines folder (splitNL content) oracle _ _ l' hl'
        with h1 | h2 | ⟨p, h3⟩
      · exact h1
      · rw [h2] at hf
        exact absurd hf (by decide)
      · rw [h3] at hf
        have hfx : isFilledMemoLine (insightLineFor p) = false := by
          unfold isFilledMemoLine
          rw [isMemoLine_insightLineFor]
          rfl
        rw [hfx] at hf
        exact Bool.noConfusion hf
    · intro c hc
      unfold syncPass at hc
      by_cases he : records.isEmpty = true
      · rw [if_pos he] at hc
        cases fe with
        | true => exact Or.inl (Option.some.inj hc).symm
        | false => exact Option.noConfusion hc
      · rw [if_neg he] at hc
        by_cases hnb : 0 < (newBlocks (if fe then stored else header) records).2
        · rw [if_pos hnb] at hc
          exact Or.inr (Or.inr
            ⟨trimL (newBlocks (if fe then stored else header) records).1,
              (Option.some.inj hc).symm⟩)
        · rw [if_neg hnb] at hc
          cases fe with
          | true =>
            rw [if_pos rfl] at hc
            exact Or.inl (Option.some.inj hc).symm
          | false =>
            rw [if_neg Bool.false_ne_true] at hc
            exact Or.inr (Or.inl (Option.some.inj hc).symm)

/-- Witness for `c4_insight_monotone` on a one-candidate document and a
one-record sync. -/
theorem c4_witness :
    (extractPass "Kobo-Insights".data (fun _ => true)
        "> quoted\n- [x] memo:: idea".data
      = some (⟨["> quoted".data, emptyMemoLine,
                insightLineFor "Kobo-Insights/idea.md".data],
               1, ["Kobo-Insights/idea.md".data]⟩ : ExtractState))
    ∧ (((splitNL "> quoted\n- [x] memo:: idea".data).countP insightLinkLine
          ≤ ((⟨["> quoted".data, emptyMemoLine,
                insightLineFor "Kobo-Insights/idea.md".data],
               1, ["Kobo-Insights/idea.md".data]⟩
              : ExtractState)).newLines.countP insightLinkLine)
      ∧ (∀ l' ∈ ((⟨["> quoted".data, emptyMemoLine,
                insightLineFor "Kobo-Insights/idea.md".data],
               1, ["Kobo-Insights/idea.md".data]⟩
              : ExtractState)).newLines,
          isFilledMemoLine l' = true → l' ∈ splitNL "> quoted\n- [x] memo:: idea".data)
      ∧ (∀ c, (syncPass true "old body".data "hdr".data
            [(⟨"r1", "t", ""⟩ : KoboRecord)]).file = some c →
          c = "old body".data ∨ c = "hdr".data ∨
          ∃ rest, c = trimEndL (if true then "old body".data else "hdr".data)
            ++ "\n\n".data ++ rest)) :=
  ⟨by decide,
    c4_insight_monotone "Kobo-Insights".data "> quoted\n- [x] memo:: idea".data
      (fun _ => true) true "old body".data "hdr".data
      [(⟨"r1", "t", ""⟩ : KoboRecord)] _ (by decide)⟩

theorem extractStep_pair_preserved (f : List Char) (L : List (List Char)) (o : Nat → Bool)
    (st : ExtractState) (t' : Nat × List Char) (m : Nat) (a b : List Char)
    (hlt : t'.1 < m)
    (ha : st.newLines[m]? = some a) (hb : st.newLines[m + 1]? = some b) :
    ∃ m', m ≤ m' ∧ (extractStep f L o st t').newLines[m']? = some a
      ∧ (extractStep f L o st t').newLines[m' + 1]? = some b := by
  have hmlen : m < st.newLines.length := (List.getElem?_eq_some_iff.mp ha).1
  unfold extractStep
  by_cases hq : (trimL ((collectQuote L t'.1).1)).isEmpty = true
  · rw [if_pos hq]
    exact ⟨m, le_refl m, ha, hb⟩
  · rw [if_neg hq]
    cases hcp : createdPathFor f t'.2 with
    | none =>
      simp only [hcp]
      refine ⟨m, le_refl m, ?_, ?_⟩
      · rw [getq_set_ne st.newLines t'.1 m emptyMemoLine (by omega)]
        exact ha
      · rw [getq_set_ne st.newLines t'.1 (m + 1) emptyMemoLine (by omega)]
        exact hb
    | some p =>
      simp only [hcp]
      refine ⟨m + 1, by omega, ?_, ?_⟩
      · rw [getq_insertAt_shift (t'.1 + 1) m (insightLineFor p)
            (st.newLines.set t'.1 emptyMemoLine) (by omega) (by rw [List.length_set]; omega),
          getq_set_ne st.newLines t'.1 m emptyMemoLine (by omega)]
        exact ha
      · rw [getq_insertAt_shift (t'.1 + 1) (m + 1) (insightLineFor p)
            (st.newLines.set t'.1 emptyMemoLine) (by omega) (by rw [List.length_set]; omega),
          getq_set_ne st.newLines t'.1 (m + 1) emptyMemoLine (by omega)]
        exact hb

theorem foldl_pair_preserved (f : List Char) (L : List (List Char)) (o : Nat → Bool)
    (ts : List (Nat × List Char)) (st : ExtractState) (m : Nat) (a b : List Char)
    (hts : ∀ t' ∈ ts, t'.1 < m)
    (ha : st.newLines[m]? = some a) (hb : st.newLines[m + 1]? = some b) :
    ∃ m', m ≤ m' ∧ ((ts.foldl (extractStep f L o) st).newLines)[m']? = some a
      ∧ ((ts.foldl (extractStep f L o) st).newLines)[m' + 1]? = some b := by
  induction ts generalizing st m with
  | nil => exact ⟨m, le_refl m, ha, hb⟩
  | cons t' ts ih =>
    rw [List.foldl_cons]
    obtain ⟨m1, hm1, ha1, hb1⟩ := extractStep_pair_preserved f L o st t' m a b
      (hts t' (List.mem_cons_self _ _)) ha hb
    obtain ⟨m2, hm2, ha2, hb2⟩ := ih _ m1
      (fun u hu => lt_of_lt_of_le (hts u (List.mem_cons_of_mem _ hu)) hm1) ha1 hb1
    exact ⟨m2, le_trans hm1 hm2, ha2, hb2⟩

theorem extractStep_creates_pair (f : List Char) (L : List (List Char)) (o : Nat → Bool)
    (st : ExtractState) (t : Nat × List Char) (p : List Char)
    (hq : (trimL ((collectQuote L t.1).1)).isEmpty = false)
    (hp : createdPathFor f t.2 = some p)
    (hlen : t.1 < st.newLines.length) :
    (extractStep f L o st t).newLines[t.1]? = some emptyMemoLine
    ∧ (extractStep f L o st t).newLines[t.1 + 1]? = some (insightLineFor p) := by
  have hnq : ¬ (trimL ((collectQuote L t.1).1)).isEmpty = true := by
    rw [hq]
    exact Bool.false_ne_true
  unfold extractStep
  rw [if_neg hnq]
  simp only [hp]
  constructor
  · rw [getq_insertAt_lt (t.1 + 1) t.1 (insightLineFor p) _
      (by omega) (by rw [List.length_set]; omega)]
    exact getq_set_self _ _ _ (by omega)
  · exact getq_insertAt_self _ _ _ (by rw [List.length_set]; omega)

/-- C3 (amended): the extraction rewrite does NOT maintain "at most one of
memo line / insight-link line after a block"; it establishes both.  For
every processed candidate whose collected quote block is non-empty and
whose title yields a created path `p`, the final line array carries, at
some position at or after the candidate's index, the empty memo
placeholder immediately followed by the insight-link line for `p` — a
`MemoLine` and an `InsightLinkLine` adjacent to the same extracted
block. -/
theorem c3_extracted_block_pair (folder content : List Char) (oracle : Nat → Bool)
    (done rest : List (Nat × List Char)) (t : Nat × List Char) (p : List Char)
    (st : ExtractState)
    (hsplit : (collectTargets (splitNL content)).reverse = done ++ t :: rest)
    (hq : (trimL ((collectQuote (splitNL content) t.1).1)).isEmpty = false)
    (hp : createdPathFor folder t.2 = some p)
    (h : extractPass folder oracle content = some st) :
    ∃ m, t.1 ≤ m ∧ st.newLines[m]? = some emptyMemoLine
      ∧ st.newLines[m + 1]? = some (insightLineFor p)
      ∧ isMemoLine emptyMemoLine = true
      ∧ insightLinkLine (insightLineFor p) = true := by
  have hins := createdPathFor_insight hp
  unfold extractPass at h
  by_cases hte : (collectTargets (splitNL content)).isEmpty = true
  · rw [if_pos hte] at h
    exact Option.noConfusion h
  · rw [if_neg hte] at h
    obtain rfl : st = _ := (Option.some.inj h).symm
    rw [hsplit, List.foldl_append, List.foldl_cons]
    have htmem : t ∈ collectTargets (splitNL content) := by
      have : t ∈ (collectTargets (splitNL content)).reverse := by
        rw [hsplit]
        exact List.mem_append.mpr (Or.inr (List.mem_cons_self _ _))
      exact List.mem_reverse.mp this
    have hidx : t.1 < (splitNL content).length := (collectTargets_mem htmem).1
    have hdesc : ((collectTargets (splitNL content)).reverse).Pairwise
        (fun a b => b.1 < a.1) := by
      rw [List.pairwise_reverse]
      exact collectTargets_sorted _
    rw [hsplit] at hdesc
    have hdone : ∀ u ∈ done, t.1 < u.1 := by
      intro u hu
      exact (List.pairwise_append.mp hdesc).2.2 u hu t (List.mem_cons_self _ _)
    have hrest : ∀ u ∈ rest, u.1 < t.1 := by
      intro u hu
      exact (List.pairwise_cons.mp (List.pairwise_append.mp hdesc).2.1).1 u hu
    have hAlen : (splitNL content).length
        ≤ (done.foldl (extractStep folder (splitNL content) oracle)
            { newLines := splitNL content, createdCount := 0,
              notesCreated := [] }).newLines.length :=
      foldl_newLines_len folder (splitNL content) oracle done
        { newLines := splitNL content, createdCount := 0, notesCreated := [] }
    obtain ⟨hstep_a, hstep_b⟩ := extractStep_creates_pair folder (splitNL content) oracle
      (done.foldl (extractStep folder (splitNL content) oracle)
        { newLines := splitNL content, createdCount := 0, notesCreated := [] })
      t p hq hp (by omega)
    obtain ⟨m, hm, hma, hmb⟩ := foldl_pair_preserved folder (splitNL content) oracle
      rest _ t.1 emptyMemoLine (insightLineFor p) hrest hstep_a hstep_b
    exact ⟨m, hm, hma, hmb, by decide, hins⟩

/-- Counterexample to C3 as stated: extracting the single candidate of this
document leaves the highlight block followed by BOTH a memo line (the
re-emptied placeholder, line 4) and an insight-link line (line 5) — the
"at most one of {MemoLine, InsightLinkLine}, never both" invariant is
violated by the extraction rewrite itself. -/
theorem c3_counterexample :
    extractPass "Kobo-Insights".data (fun _ => true)
        "> [!quote]- s...\n> <!-- id: c3 -->\n> body\n> \n- [x] memo:: note".data
      = some (⟨["> [!quote]- s...".data, "> <!-- id: c3 -->".data, "> body".data,
                "> ".data, emptyMemoLine, insightLineFor "Kobo-Insights/note.md".data],
               1, ["Kobo-Insights/note.md".data]⟩ : ExtractState)
    ∧ quoteOpenLine "> [!quote]- s...".data = true
    ∧ isMemoLine emptyMemoLine = true
    ∧ insightLinkLine (insightLineFor "Kobo-Insights/note.md".data) = true := by
  refine ⟨?_, ?_, ?_, ?_⟩ <;> decide

/-- Witness for `c3_extracted_block_pair` on a one-candidate document. -/
theorem c3_witness :
    ((collectTargets (splitNL
        "> [!quote]- t...\n> <!-- id: a1 -->\n> hello\n> \n- [x] memo:: idea".data)).reverse
      = [] ++ ((4 : Nat), "memo:: idea".data) :: [])
    ∧ ((trimL ((collectQuote (splitNL
        "> [!quote]- t...\n> <!-- id: a1 -->\n> hello\n> \n- [x] memo:: idea".data)
          4).1)).isEmpty = false)
    ∧ (createdPathFor "Kobo-Insights".data "memo:: idea".data
        = some "Kobo-Insights/idea.md".data)
    ∧ (extractPass "Kobo-Insights".data (fun _ => false)
        "> [!quote]- t...\n> <!-- id: a1 -->\n> hello\n> \n- [x] memo:: idea".data
      = some (⟨["> [!quote]- t...".data, "> <!-- id: a1 -->".data, "> hello".data,
                "> ".data, emptyMemoLine, insightLineFor "Kobo-Insights/idea.md".data],
               1, []⟩ : ExtractState))
    ∧ (∃ m, 4 ≤ m
        ∧ (⟨["> [!quote]- t...".data, "> <!-- id: a1 -->".data, "> hello".data,
              "> ".data, emptyMemoLine, insightLineFor "Kobo-Insights/idea.md".data],
             1, []⟩ : ExtractState).newLines[m]? = some emptyMemoLine
        ∧ (⟨["> [!quote]- t...".data, "> <!-- id: a1 -->".data, "> hello".data,
              "> ".data, emptyMemoLine, insightLineFor "Kobo-Insights/idea.md".data],
             1, []⟩ : ExtractState).newLines[m + 1]?
            = some (insightLineFor "Kobo-Insights/idea.md".data)
        ∧ isMemoLine emptyMemoLine = true
        ∧ insightLinkLine (insightLineFor "Kobo-Insights/idea.md".data) = true) :=
  ⟨by decide, by decide, by decide, by decide,
    c3_extracted_block_pair "Kobo-Insights".data
      "> [!quote]- t...\n> <!-- id: a1 -->\n> hello\n> \n- [x] memo:: idea".data
      (fun _ => false) [] [] ((4 : Nat), "memo:: idea".data)
      "Kobo-Insights/idea.md".data _ (by decide) (by decide) (by decide) (by decide)⟩

example : splitNL "a\nb".data = ["a".data, "b".data] := by decide
example : splitNL "a\n".data = ["a".data, []] := by decide
example : splitNL [] = [[]] := by decide
example : trimL "  x y ".data = "x y".data := by decide
example : hasSub "abcd".data "bc".data = true := by decide
example : hasSub "abcd".data "bd".data = false := by decide
example : occCount "aa".data "aaa".data = 2 := by decide
